import Mathlib

/-!
# Serial line console of `src/main.c`

A shallow embedding of the receive interrupt handler `uart0_rx_intr_handler`,
the periodic consumer `main_on_timer` and the two transmit helpers
`uart_byte_out` / `uart_str_out`, followed by theorems about them.

Conventions of the embedding

* A byte (`uint8_t`, `char`) is a `Nat` holding its 8-bit pattern.
* A C array is a `List Nat` whose length is the size of the array; a pointer
  into it is an offset.  A load or store whose offset is not below the length
  of the array has no defined behaviour in C, and the embedding returns
  `none` for the whole call at that point.
* `rx_line_pos` and `rx_line_done` are `uint8_t`; the increment is taken
  modulo 256.
* The hardware is part of the state: the values the transmit-FIFO counter is
  going to show, the bytes written to the transmit FIFO so far, and the number
  of calls of `system_restart`.  The transmit FIFO is taken to drain: once the
  listed counter values are used up it reads as empty, so the busy-wait of
  `uart_byte_out` always ends.
* The write that clears the interrupt flag (line 94) and `user_init` touch
  hardware registers only and are left out.
* For what the handler transmits there is a second, total form of the handler
  (`rx_byte_oob` and the functions over it): a store outside the array is
  given an arbitrary effect on the program variables, passed as a parameter,
  and leaves the UART alone.  It agrees with the first form wherever that one
  has a result.
-/

namespace UartRx

/-! ## Data model -/

/-- Transmit side of UART0. `tx_cnt` lists the values that the transmit-FIFO
count field of `UART_STATUS` shows on the coming reads (after the last listed
value the FIFO reads as empty); `tx_fifo` lists the bytes written to
`UART_FIFO` so far, oldest first. -/
structure Uart where
  tx_cnt : List Nat
  tx_fifo : List Nat
deriving DecidableEq

/-- Program variables `rx_line` (an array of size `rx_line.length`, 255 in
the source), `rx_line_pos`, `rx_line_done`, together with the hardware: the
UART and the count of `system_restart` calls made so far. -/
structure Sys where
  rx_line : List Nat
  rx_line_pos : Nat
  rx_line_done : Nat
  uart : Uart
  restarts : Nat
deriving DecidableEq

/-- String literal `"\r\n> "` with its terminator. -/
def str_prompt : List Nat := [13, 10, 62, 32, 0]

/-- String literal `"\r\n"` with its terminator. -/
def str_crlf : List Nat := [13, 10, 0]

/-- String literal `"reset"` with its terminator. -/
def str_reset : List Nat := [114, 101, 115, 101, 116, 0]

/-! ## Transmit helpers (lines 34-54) -/

/-- Busy-wait of `uart_byte_out` (lines 39-43): read the transmit-FIFO count
until a value below 128 is seen; the result is what is left of the readings. -/
def tx_wait : List Nat → List Nat
  | [] => []
  | fifo_tx_cnt :: rest => if fifo_tx_cnt < 128 then rest else tx_wait rest

/-- Function `uart_byte_out` (lines 34-45): wait, then write the byte to the
transmit FIFO. -/
def uart_byte_out (u : Uart) (byte : Nat) : Uart :=
  { tx_cnt := tx_wait u.tx_cnt, tx_fifo := u.tx_fifo ++ [byte] }

/-- Function `uart_str_out` (lines 49-54), given the array that `s` points
into, from the pointed-to position on: send bytes until a 0 is read. Reading
past the end of the array gives `none`. -/
def uart_str_out (u : Uart) : List Nat → Option Uart
  | [] => none
  | c :: rest => if c ≠ 0 then uart_str_out (uart_byte_out u c) rest else some u

/-! ## Receive interrupt handler (lines 58-96) -/

/-- Array store `a[i] = v`; `none` when `i` is outside the array. -/
def store (a : List Nat) (i v : Nat) : Option (List Nat) :=
  if i < a.length then some (a.set i v) else none

/-- Body of the `for` loop of `uart0_rx_intr_handler` (lines 78-89) for one
received byte `ch`. -/
def rx_byte (s : Sys) (ch : Nat) : Option Sys :=
  let s1 := { s with uart := uart_byte_out s.uart ch }
  if ch = 0x0D then
    match store s1.rx_line s1.rx_line_pos 0 with
    | none => none
    | some a =>
        some { s1 with rx_line := a
                       rx_line_pos := (s1.rx_line_pos + 1) % 256
                       rx_line_done := 1 }
  else if s1.rx_line_pos < 255 then
    match store s1.rx_line s1.rx_line_pos ch with
    | none => none
    | some a => some { s1 with rx_line := a, rx_line_pos := (s1.rx_line_pos + 1) % 256 }
  else some s1

/-- The `for` loop of `uart0_rx_intr_handler` (lines 77-90) over the bytes
read from the receive FIFO, in arrival order. -/
def rx_loop (s : Sys) : List Nat → Option Sys
  | [] => some s
  | ch :: rest =>
      match rx_byte s ch with
      | none => none
      | some s1 => rx_loop s1 rest

/-- Function `uart0_rx_intr_handler` (lines 58-96). `rxfifo_full` is the
receive-FIFO-full bit of the interrupt status; `rx_fifo` lists the bytes
(`ch`, already masked with 0xFF) that the loop reads from the receive FIFO, so
`fifo_rx_cnt` is its length. -/
def uart0_rx_intr_handler (s : Sys) (rxfifo_full : Bool) (rx_fifo : List Nat) : Option Sys :=
  if rxfifo_full then rx_loop s rx_fifo else some s

/-- A run of receive interrupts, one per batch of bytes, with no timer tick
in between. -/
def deliver (s : Sys) : List (List Nat) → Option Sys
  | [] => some s
  | batch :: rest =>
      match uart0_rx_intr_handler s true batch with
      | none => none
      | some s1 => deliver s1 rest

/-! ## Timer callback (lines 100-124) -/

/-- The `while` loop of lines 110-112. `s0` and `s1` are what is left of the
two arrays from the current pointers on and `i` is the common offset of the
two pointers; the result is the offset of both pointers after the loop. -/
def cmp_loop : List Nat → List Nat → Nat → Option Nat
  | a :: s0, b :: s1, i =>
      if a ≠ 0 ∨ b ≠ 0 then
        if a ≠ b then some (i + 1) else cmp_loop s0 s1 (i + 1)
      else some i
  | _, _, _ => none

/-- Lines 105-113: run the loop over `rx_line` and the literal, step both
pointers back by one and compare the bytes they point to. -/
def cmp_reset (buf : List Nat) : Option Bool :=
  match cmp_loop buf str_reset 0 with
  | none => none
  | some 0 => none
  | some (i + 1) =>
      match buf[i]?, str_reset[i]? with
      | some a, some b => some (decide (a = b))
      | _, _ => none

/-- Lines 120-122: clear the flag and the position and empty the line. -/
def rx_clear (s : Sys) : Option Sys :=
  match store s.rx_line 0 0 with
  | none => none
  | some a => some { s with rx_line_done := 0, rx_line_pos := 0, rx_line := a }

/-- Function `main_on_timer` (lines 100-124). The call of `system_restart`
is counted in `restarts`; as in the source, the statements after it run when
it returns. -/
def main_on_timer (s : Sys) : Option Sys :=
  if s.rx_line_done ≠ 0 ∨ 255 ≤ s.rx_line_pos then
    match cmp_reset s.rx_line with
    | none => none
    | some true => rx_clear { s with restarts := s.restarts + 1 }
    | some false =>
        match uart_str_out s.uart str_prompt with
        | none => none
        | some u1 =>
            match uart_str_out u1 s.rx_line with
            | none => none
            | some u2 =>
                match uart_str_out u2 str_crlf with
                | none => none
                | some u3 => rx_clear { s with uart := u3 }
  else some s

/-- Run `n` timer ticks in a row with no input in between. -/
def ticks : Nat → Sys → Option Sys
  | 0, s => some s
  | n + 1, s =>
      match main_on_timer s with
      | none => none
      | some s1 => ticks n s1

/-- State right after start-up as far as the line variables go: a line
array of 255 zero bytes, position 0, flag 0. -/
def init (u : Uart) : Sys :=
  { rx_line := List.replicate 255 0, rx_line_pos := 0, rx_line_done := 0,
    uart := u, restarts := 0 }

/-- A state holding the completed line `w` (shorter than 255 bytes) in a
255-byte array otherwise zero, with the flag set. -/
def line_state (w : List Nat) : Sys :=
  { rx_line := w ++ List.replicate (255 - w.length) 0, rx_line_pos := w.length + 1,
    rx_line_done := 1, uart := { tx_cnt := [], tx_fifo := [] }, restarts := 0 }

/-- The five bytes of the command word `reset`, without terminator. -/
def reset_word : List Nat := [114, 101, 115, 101, 116]

/-- Content of a buffer read as a C string: the bytes before the first 0
(all of them when there is none). -/
def c_str : List Nat → List Nat
  | [] => []
  | c :: rest => if c ≠ 0 then c :: c_str rest else []

/-! ## Instrumented views of the same code -/

/-- What `uart_byte_out` does to the hardware, in order: a read of the
transmit-FIFO count (with the value read) or a write of a byte to the transmit
FIFO. -/
inductive HwEvent where
  | status_read (fifo_tx_cnt : Nat)
  | fifo_write (byte : Nat)
deriving DecidableEq

/-- Function `uart_byte_out` (lines 34-45) as the sequence of its hardware
accesses, given the values the count will show: one read per turn of the
`while (1)` loop, up to the first value below 128, then the write of line 44.
When the listed values run out the FIFO reads as empty (count 0). -/
def uart_byte_out_events : List Nat → Nat → List HwEvent
  | [], byte => [HwEvent.status_read 0, HwEvent.fifo_write byte]
  | fifo_tx_cnt :: rest, byte =>
      HwEvent.status_read fifo_tx_cnt ::
        (if fifo_tx_cnt < 128 then [HwEvent.fifo_write byte]
         else uart_byte_out_events rest byte)

/-- Lines 85-89 of the handler loop: what happens to the line variables for
the byte `ch`, once the byte has been echoed. -/
def rx_store (s : Sys) (ch : Nat) : Option Sys :=
  if ch = 0x0D then
    match store s.rx_line s.rx_line_pos 0 with
    | none => none
    | some a =>
        some { s with rx_line := a
                      rx_line_pos := (s.rx_line_pos + 1) % 256
                      rx_line_done := 1 }
  else if s.rx_line_pos < 255 then
    match store s.rx_line s.rx_line_pos ch with
    | none => none
    | some a => some { s with rx_line := a, rx_line_pos := (s.rx_line_pos + 1) % 256 }
  else some s

/-- Index of `rx_line` that lines 85-89 store to for the byte `ch`: the
position in the 0x0D branch (line 86, no test), the position in the other
branch when it is below 255 (lines 88-89), no store otherwise. -/
def rx_store_index (s : Sys) (ch : Nat) : Option Nat :=
  if ch = 0x0D then some s.rx_line_pos
  else if s.rx_line_pos < 255 then some s.rx_line_pos
  else none

/-- Body of the handler loop (lines 78-89) with an effect given to a store
that leaves the array. The byte is echoed (line 81); lines 85-89 then run as in
`rx_store`; where their store is outside `rx_line`, `stray s ch` stands for
what that store makes of the program variables. The store goes to memory, so
the UART stays as the echo left it. -/
def rx_byte_oob (stray : Sys → Nat → Sys) (s : Sys) (ch : Nat) : Sys :=
  let s1 := { s with uart := uart_byte_out s.uart ch }
  match rx_store s1 ch with
  | some s2 => s2
  | none => { stray s1 ch with uart := s1.uart }

/-- The `for` loop of the handler (lines 77-90) over `rx_byte_oob`. -/
def rx_loop_oob (stray : Sys → Nat → Sys) (s : Sys) : List Nat → Sys
  | [] => s
  | ch :: rest => rx_loop_oob stray (rx_byte_oob stray s ch) rest

/-- Function `uart0_rx_intr_handler` (lines 58-96) over `rx_loop_oob`. -/
def uart0_rx_intr_handler_oob (stray : Sys → Nat → Sys) (s : Sys) (rxfifo_full : Bool)
    (rx_fifo : List Nat) : Sys :=
  if rxfifo_full then rx_loop_oob stray s rx_fifo else s

/-- A run of receive interrupts, one per batch, over
`uart0_rx_intr_handler_oob`. -/
def deliver_oob (stray : Sys → Nat → Sys) (s : Sys) : List (List Nat) → Sys
  | [] => s
  | batch :: rest => deliver_oob stray (uart0_rx_intr_handler_oob stray s true batch) rest

/-- A state with a full line array: 255 bytes `a`, none of them 0, position
255, flag clear. -/
def full_state : Sys :=
  { rx_line := List.replicate 255 97, rx_line_pos := 255, rx_line_done := 0,
    uart := { tx_cnt := [], tx_fifo := [] }, restarts := 0 }

/-- Record of one run of the `while` loop of lines 110-112: the common offset
of the two pointers after the loop, the number of times the body ran, and the
offsets at which `s0` and `s1` were dereferenced, in order. -/
structure CmpTrace where
  off : Nat
  iters : Nat
  reads0 : List Nat
  reads1 : List Nat
deriving DecidableEq

/-- The `while` loop of lines 110-112 with its reads recorded. The condition
`*s0 || *s1` reads `*s0`, and `*s1` only when `*s0` is 0; the body reads
both. -/
def cmp_loop_trace : List Nat → List Nat → Nat → Option CmpTrace
  | a :: s0, b :: s1, i =>
      if a ≠ 0 ∨ b ≠ 0 then
        if a ≠ b then
          some { off := i + 1, iters := 1, reads0 := [i, i],
                 reads1 := (if a = 0 then [i, i] else [i]) }
        else
          match cmp_loop_trace s0 s1 (i + 1) with
          | none => none
          | some t =>
              some { off := t.off, iters := t.iters + 1, reads0 := i :: i :: t.reads0,
                     reads1 := (if a = 0 then [i, i] else [i]) ++ t.reads1 }
      else some { off := i, iters := 0, reads0 := [i], reads1 := [i] }
  | _, _, _ => none

/-! ## Lemmas on the transmit helpers -/

theorem uart_byte_out_tx_fifo (u : Uart) (b : Nat) :
    (uart_byte_out u b).tx_fifo = u.tx_fifo ++ [b] := rfl

theorem uart_str_out_terminated (pre rest : List Nat) (h0 : 0 ∉ pre) :
    ∀ u : Uart, ∃ u1, uart_str_out u (pre ++ 0 :: rest) = some u1 ∧
      u1.tx_fifo = u.tx_fifo ++ pre := by
  induction pre with
  | nil => intro u; exact ⟨u, by simp [uart_str_out], by simp⟩
  | cons c pre ih =>
      intro u
      have hc : c ≠ 0 := fun h => h0 (by simp [h])
      have h0' : 0 ∉ pre := fun h => h0 (by simp [h])
      obtain ⟨u1, h1, h2⟩ := ih h0' (uart_byte_out u c)
      refine ⟨u1, ?_, ?_⟩
      · simp [uart_str_out, hc, h1]
      · simp [h2, uart_byte_out_tx_fifo]

theorem uart_str_out_unterminated (buf : List Nat) (h0 : 0 ∉ buf) :
    ∀ u : Uart, uart_str_out u buf = none := by
  induction buf with
  | nil => intro u; rfl
  | cons c buf ih =>
      intro u
      have hc : c ≠ 0 := fun h => h0 (by simp [h])
      have h0' : 0 ∉ buf := fun h => h0 (by simp [h])
      simp [uart_str_out, hc, ih h0']

theorem uart_str_out_prompt (u : Uart) :
    ∃ u1, uart_str_out u str_prompt = some u1 ∧ u1.tx_fifo = u.tx_fifo ++ [13, 10, 62, 32] :=
  uart_str_out_terminated [13, 10, 62, 32] [] (by decide) u

theorem uart_str_out_crlf (u : Uart) :
    ∃ u1, uart_str_out u str_crlf = some u1 ∧ u1.tx_fifo = u.tx_fifo ++ [13, 10] :=
  uart_str_out_terminated [13, 10] [] (by decide) u

/-! ## Lemmas on C strings -/

theorem c_str_append_zero (pre rest : List Nat) (h0 : 0 ∉ pre) :
    c_str (pre ++ 0 :: rest) = pre := by
  induction pre with
  | nil => simp [c_str]
  | cons c pre ih =>
      have hc : c ≠ 0 := fun h => h0 (by simp [h])
      have h0' : 0 ∉ pre := fun h => h0 (by simp [h])
      simp [c_str, hc, ih h0']

theorem c_str_no_zero (buf : List Nat) : 0 ∉ c_str buf := by
  induction buf with
  | nil => simp [c_str]
  | cons c buf ih =>
      by_cases hc : c = 0
      · simp [c_str, hc]
      · simp only [c_str, ne_eq, hc, not_false_eq_true, if_true, List.mem_cons, not_or]
        exact ⟨fun h => hc h.symm, ih⟩

theorem c_str_split (buf : List Nat) (h0 : 0 ∈ buf) :
    ∃ rest, buf = c_str buf ++ 0 :: rest := by
  induction buf with
  | nil => simp at h0
  | cons c buf ih =>
      by_cases hc : c = 0
      · subst hc
        exact ⟨buf, by simp [c_str]⟩
      · have h0' : 0 ∈ buf := by
          rcases List.mem_cons.mp h0 with h | h
          · exact absurd h.symm hc
          · exact h
        obtain ⟨rest, hr⟩ := ih h0'
        refine ⟨rest, ?_⟩
        simp only [c_str, ne_eq, hc, not_false_eq_true, if_true, List.cons_append]
        rw [← hr]

theorem c_str_of_no_zero (buf : List Nat) (h0 : 0 ∉ buf) : c_str buf = buf := by
  induction buf with
  | nil => rfl
  | cons c buf ih =>
      have hc : c ≠ 0 := fun h => h0 (by simp [h])
      have h0' : 0 ∉ buf := fun h => h0 (by simp [h])
      simp [c_str, hc, ih h0']

/-! ## Lemmas on the comparison with the command word -/

theorem cmp_reset_eq (buf : List Nat) (hlen : 6 ≤ buf.length) :
    cmp_reset buf = some (decide (buf.take 6 = str_reset)) := by
  match buf, hlen with
  | a0 :: a1 :: a2 :: a3 :: a4 :: a5 :: rest, _ =>
    by_cases h0 : a0 = 114
    · by_cases h1 : a1 = 101
      · by_cases h2 : a2 = 115
        · by_cases h3 : a3 = 101
          · by_cases h4 : a4 = 116
            · by_cases h5 : a5 = 0
              · simp [cmp_reset, cmp_loop, str_reset, h0, h1, h2, h3, h4, h5]
              · simp [cmp_reset, cmp_loop, str_reset, h0, h1, h2, h3, h4, h5]
            · simp [cmp_reset, cmp_loop, str_reset, h0, h1, h2, h3, h4]
          · simp [cmp_reset, cmp_loop, str_reset, h0, h1, h2, h3]
        · simp [cmp_reset, cmp_loop, str_reset, h0, h1, h2]
      · simp [cmp_reset, cmp_loop, str_reset, h0, h1]
    · simp [cmp_reset, cmp_loop, str_reset, h0]

theorem take_six_eq_reset_iff (buf : List Nat) :
    buf.take 6 = str_reset ↔ (0 ∈ buf ∧ c_str buf = reset_word) := by
  constructor
  · intro h
    have hb : buf = str_reset ++ buf.drop 6 := by
      rw [← h]; exact (List.take_append_drop 6 buf).symm
    rw [hb]
    refine ⟨by simp [str_reset], ?_⟩
    simp [str_reset, c_str, reset_word]
  · rintro ⟨h0, hc⟩
    obtain ⟨rest, hr⟩ := c_str_split buf h0
    rw [hc] at hr
    rw [hr]
    simp [reset_word, str_reset]

/-! ## Lemmas on the receive handler -/

theorem store_append (p q : List Nat) (d v : Nat) :
    store (p ++ d :: q) p.length v = some (p ++ v :: q) := by
  simp [store]

theorem rx_loop_append (a b : List Nat) :
    ∀ s : Sys, rx_loop s (a ++ b) = (rx_loop s a).bind (fun s1 => rx_loop s1 b) := by
  induction a with
  | nil => intro s; simp [rx_loop]
  | cons c a ih =>
      intro s
      simp only [List.cons_append, rx_loop]
      cases rx_byte s c with
      | none => simp
      | some s1 => simpa using ih s1

theorem deliver_flatten (bs : List (List Nat)) :
    ∀ s : Sys, deliver s bs = rx_loop s bs.flatten := by
  induction bs with
  | nil => intro s; simp [deliver, rx_loop]
  | cons b bs ih =>
      intro s
      simp only [deliver, uart0_rx_intr_handler, if_true, List.flatten_cons, rx_loop_append]
      cases rx_loop s b with
      | none => simp
      | some s1 => simpa using ih s1

theorem rx_byte_plain (s : Sys) (p q : List Nat) (d ch : Nat) (hch : ch ≠ 13)
    (hs : s.rx_line = p ++ d :: q) (hp : p.length = s.rx_line_pos)
    (hpos : s.rx_line_pos < 255) :
    rx_byte s ch = some { s with uart := uart_byte_out s.uart ch
                                 rx_line := p ++ ch :: q
                                 rx_line_pos := s.rx_line_pos + 1 } := by
  have hmod : (s.rx_line_pos + 1) % 256 = s.rx_line_pos + 1 := Nat.mod_eq_of_lt (by omega)
  have hst : store s.rx_line s.rx_line_pos ch = some (p ++ ch :: q) := by
    rw [hs, ← hp]; exact store_append p q d ch
  simp [rx_byte, hch, hpos, hst, hmod]

theorem rx_byte_cr (s : Sys) (p q : List Nat) (d : Nat)
    (hs : s.rx_line = p ++ d :: q) (hp : p.length = s.rx_line_pos)
    (hpos : s.rx_line_pos < 255) :
    rx_byte s 13 = some { s with uart := uart_byte_out s.uart 13
                                 rx_line := p ++ 0 :: q
                                 rx_line_pos := s.rx_line_pos + 1
                                 rx_line_done := 1 } := by
  have hmod : (s.rx_line_pos + 1) % 256 = s.rx_line_pos + 1 := Nat.mod_eq_of_lt (by omega)
  have hst : store s.rx_line s.rx_line_pos 0 = some (p ++ 0 :: q) := by
    rw [hs, ← hp]; exact store_append p q d 0
  simp [rx_byte, hst, hmod]

theorem rx_byte_dropped (s : Sys) (ch : Nat) (hch : ch ≠ 13) (hpos : 255 ≤ s.rx_line_pos) :
    rx_byte s ch = some { s with uart := uart_byte_out s.uart ch } := by
  have : ¬ s.rx_line_pos < 255 := by omega
  simp [rx_byte, hch, this]

theorem rx_byte_cr_overflow (s : Sys) (hlen : s.rx_line.length = 255)
    (hp : 255 ≤ s.rx_line_pos) : rx_byte s 13 = none := by
  have : ¬ s.rx_line_pos < s.rx_line.length := by omega
  simp [rx_byte, store, this]

/-- Bytes other than CR are appended one after the other while there is
room: with the array split as `p ++ q` at the write position, the loop over
`w` ends with `p ++ w ++ q.drop w.length`. -/
theorem rx_loop_plain (w : List Nat) (hw : 13 ∉ w) :
    ∀ (s : Sys) (p q : List Nat), s.rx_line = p ++ q → p.length = s.rx_line_pos →
      w.length ≤ q.length → s.rx_line_pos + w.length ≤ 255 →
      ∃ s1, rx_loop s w = some s1 ∧ s1.rx_line = p ++ w ++ q.drop w.length ∧
        s1.rx_line_pos = s.rx_line_pos + w.length ∧ s1.rx_line_done = s.rx_line_done ∧
        s1.restarts = s.restarts ∧ s1.uart.tx_fifo = s.uart.tx_fifo ++ w := by
  induction w with
  | nil =>
      intro s p q hs hp _ _
      exact ⟨s, rfl, by simpa using hs, by simp, rfl, rfl, by simp⟩
  | cons c w ih =>
      intro s p q hs hp hq hpos
      have hc : c ≠ 13 := fun h => hw (by simp [h])
      have hw' : 13 ∉ w := fun h => hw (by simp [h])
      match q, hq with
      | d :: q', hq' =>
        simp only [List.length_cons] at hq' hpos
        have h1 := rx_byte_plain s p q' d c hc hs hp (by omega)
        obtain ⟨s2, e1, e2, e3, e4, e5, e6⟩ :=
          ih hw' { s with uart := uart_byte_out s.uart c
                          rx_line := p ++ c :: q'
                          rx_line_pos := s.rx_line_pos + 1 }
            (p ++ [c]) q' (by simp) (by simp [hp]) (by omega) (by simp only; omega)
        refine ⟨s2, ?_, ?_, ?_, ?_, ?_, ?_⟩
        · simp only [rx_loop, h1]; exact e1
        · simpa using e2
        · simp only [e3, List.length_cons]; omega
        · simpa using e4
        · simpa using e5
        · simp [e6, uart_byte_out_tx_fifo]

/-- Once the position is at 255, bytes other than CR are echoed and dropped:
line, position, flag and restart count stay as they are. -/
theorem rx_loop_dropped (w : List Nat) (hw : 13 ∉ w) :
    ∀ s : Sys, 255 ≤ s.rx_line_pos →
      ∃ s1, rx_loop s w = some s1 ∧ s1.rx_line = s.rx_line ∧
        s1.rx_line_pos = s.rx_line_pos ∧ s1.rx_line_done = s.rx_line_done ∧
        s1.restarts = s.restarts ∧ s1.uart.tx_fifo = s.uart.tx_fifo ++ w := by
  induction w with
  | nil => intro s _; exact ⟨s, rfl, rfl, rfl, rfl, rfl, by simp⟩
  | cons c w ih =>
      intro s hpos
      have hc : c ≠ 13 := fun h => hw (by simp [h])
      have hw' : 13 ∉ w := fun h => hw (by simp [h])
      obtain ⟨s2, e1, e2, e3, e4, e5, e6⟩ := ih hw' { s with uart := uart_byte_out s.uart c } hpos
      refine ⟨s2, ?_, e2, e3, e4, e5, ?_⟩
      · simp only [rx_loop, rx_byte_dropped s c hc hpos]; exact e1
      · simp [e6, uart_byte_out_tx_fifo]

/-- A line `w` of at most 254 bytes other than CR followed by CR, received
from position 0: the line, its terminator, and what the array held behind. -/
theorem rx_loop_line (w : List Nat) (hw : 13 ∉ w) (s : Sys) (hlen : s.rx_line.length = 255)
    (hpos : s.rx_line_pos = 0) (hwl : w.length ≤ 254) :
    ∃ s1, rx_loop s (w ++ [13]) = some s1 ∧
      s1.rx_line = w ++ 0 :: s.rx_line.drop (w.length + 1) ∧
      s1.rx_line_pos = w.length + 1 ∧ s1.rx_line_done = 1 ∧
      s1.restarts = s.restarts ∧ s1.uart.tx_fifo = s.uart.tx_fifo ++ (w ++ [13]) := by
  obtain ⟨s1, e1, e2, e3, e4, e5, e6⟩ :=
    rx_loop_plain w hw s [] s.rx_line (by simp) (by simp [hpos]) (by omega) (by omega)
  simp only [List.nil_append, hpos, Nat.zero_add] at e2 e3
  have hd : (s.rx_line.drop w.length).length = 255 - w.length := by simp [hlen]
  match hq : s.rx_line.drop w.length, hd with
  | [], hd' => simp at hd'; omega
  | d :: q, _ =>
    rw [hq] at e2
    have hq' : q = s.rx_line.drop (w.length + 1) := by
      have := congrArg (List.drop 1) hq
      simpa [List.drop_drop, Nat.add_comm] using this.symm
    have h1 := rx_byte_cr s1 w q d e2 (by simp [e3]) (by omega)
    refine ⟨{ s1 with uart := uart_byte_out s1.uart 13
                      rx_line := w ++ 0 :: q
                      rx_line_pos := s1.rx_line_pos + 1
                      rx_line_done := 1 }, ?_, ?_, ?_, ?_, ?_, ?_⟩
    · rw [rx_loop_append, e1]; simp only [Option.bind, rx_loop, h1]
    · simp [hq']
    · simp [e3]
    · rfl
    · simpa using e5
    · simp [e6, uart_byte_out_tx_fifo]

/-- One handler step that stays inside the array keeps the array size, does
not move the position back, leaves the bytes below the old position alone and
never clears the flag. -/
theorem rx_byte_frozen (s s1 : Sys) (ch : Nat) (hlen : s.rx_line.length = 255)
    (h : rx_byte s ch = some s1) :
    s1.rx_line.length = 255 ∧ s.rx_line_pos ≤ s1.rx_line_pos ∧
      s1.rx_line.take s.rx_line_pos = s.rx_line.take s.rx_line_pos ∧
      (s.rx_line_done = 1 → s1.rx_line_done = 1) := by
  have hset : ∀ v, (s.rx_line.set s.rx_line_pos v).take s.rx_line_pos
      = s.rx_line.take s.rx_line_pos := by
    intro v
    apply List.ext_getElem?
    intro i
    by_cases hi : i < s.rx_line_pos
    · rw [List.getElem?_take_of_lt hi, List.getElem?_take_of_lt hi, List.getElem?_set]
      have : ¬ s.rx_line_pos = i := by omega
      simp [this]
    · rw [List.getElem?_take_eq_none (by omega), List.getElem?_take_eq_none (by omega)]
  unfold rx_byte store at h
  by_cases hch : ch = 13
  · simp only [hch, if_true] at h
    by_cases hp : s.rx_line_pos < s.rx_line.length
    · simp only [hp, if_true, Option.some.injEq] at h
      subst h
      have hmod : (s.rx_line_pos + 1) % 256 = s.rx_line_pos + 1 := Nat.mod_eq_of_lt (by omega)
      refine ⟨by simp [hlen], by simp only [hmod]; omega, hset 0, fun _ => rfl⟩
    · simp [hp] at h
  · simp only [hch, if_false] at h
    by_cases hq : s.rx_line_pos < 255
    · have hp : s.rx_line_pos < s.rx_line.length := by omega
      simp only [hq, if_true, hp, Option.some.injEq] at h
      subst h
      have hmod : (s.rx_line_pos + 1) % 256 = s.rx_line_pos + 1 := Nat.mod_eq_of_lt (by omega)
      refine ⟨by simp [hlen], by simp only [hmod]; omega, hset ch, fun hd => hd⟩
    · simp only [hq, if_false, Option.some.injEq] at h
      subst h
      exact ⟨hlen, Nat.le_refl _, rfl, fun hd => hd⟩

/-- A run of the handler loop that stays inside the array leaves the bytes
below the starting position alone and never clears the flag. -/
theorem rx_loop_frozen (u : List Nat) :
    ∀ (s s1 : Sys), s.rx_line.length = 255 → rx_loop s u = some s1 →
      s1.rx_line.length = 255 ∧ s.rx_line_pos ≤ s1.rx_line_pos ∧
        s1.rx_line.take s.rx_line_pos = s.rx_line.take s.rx_line_pos ∧
        (s.rx_line_done = 1 → s1.rx_line_done = 1) := by
  induction u with
  | nil =>
      intro s s1 hlen h
      simp only [rx_loop, Option.some.injEq] at h
      subst h
      exact ⟨hlen, Nat.le_refl _, rfl, fun hd => hd⟩
  | cons c u ih =>
      intro s s1 hlen h
      simp only [rx_loop] at h
      cases hb : rx_byte s c with
      | none => rw [hb] at h; exact absurd h (by simp)
      | some s2 =>
          rw [hb] at h
          obtain ⟨a1, a2, a3, a4⟩ := rx_byte_frozen s s2 c hlen hb
          obtain ⟨b1, b2, b3, b4⟩ := ih s2 s1 a1 h
          refine ⟨b1, by omega, ?_, fun hd => b4 (a4 hd)⟩
          have := congrArg (List.take s.rx_line_pos) b3
          rw [List.take_take, List.take_take, Nat.min_eq_left a2] at this
          rw [this, a3]

/-- The handler loop stays inside the array when the bytes to come fit
between the position and the end of the array. -/
theorem rx_loop_defined (u : List Nat) :
    ∀ s : Sys, s.rx_line.length = 255 → s.rx_line_pos + u.length ≤ 255 →
      ∃ s1, rx_loop s u = some s1 ∧ s1.rx_line_pos ≤ s.rx_line_pos + u.length := by
  induction u with
  | nil => intro s _ _; exact ⟨s, rfl, by simp⟩
  | cons c u ih =>
      intro s hlen hfit
      simp only [List.length_cons] at hfit
      have hp : s.rx_line_pos < s.rx_line.length := by omega
      have hq : s.rx_line_pos < 255 := by omega
      have hmod : (s.rx_line_pos + 1) % 256 = s.rx_line_pos + 1 := Nat.mod_eq_of_lt (by omega)
      have hb : ∃ s2, rx_byte s c = some s2 ∧ s2.rx_line.length = 255 ∧
          s2.rx_line_pos = s.rx_line_pos + 1 := by
        by_cases hch : c = 13
        · refine ⟨{ s with uart := uart_byte_out s.uart 13
                           rx_line := s.rx_line.set s.rx_line_pos 0
                           rx_line_pos := (s.rx_line_pos + 1) % 256
                           rx_line_done := 1 }, ?_, by simp [hlen], hmod⟩
          simp only [rx_byte, store, hch, if_true, hp]
        · refine ⟨{ s with uart := uart_byte_out s.uart c
                           rx_line := s.rx_line.set s.rx_line_pos c
                           rx_line_pos := (s.rx_line_pos + 1) % 256 }, ?_, by simp [hlen], hmod⟩
          simp only [rx_byte, store, hch, if_false, hq, if_true, hp]
      obtain ⟨s2, b1, b2, b3⟩ := hb
      obtain ⟨s1, e1, e2⟩ := ih s2 b2 (by omega)
      refine ⟨s1, ?_, ?_⟩
      · simp only [rx_loop, b1]; exact e1
      · simp only [List.length_cons]; omega

/-! ## Lemmas on the timer callback -/

theorem rx_clear_eq (s : Sys) (h : 0 < s.rx_line.length) :
    rx_clear s = some { s with rx_line_done := 0, rx_line_pos := 0,
                               rx_line := s.rx_line.set 0 0 } := by
  simp [rx_clear, store, h]

theorem rx_clear_post (s s1 : Sys) (h : rx_clear s = some s1) :
    s1.rx_line = s.rx_line.set 0 0 ∧ s1.rx_line_pos = 0 ∧ s1.rx_line_done = 0 ∧
      s1.restarts = s.restarts ∧ s1.uart = s.uart := by
  unfold rx_clear store at h
  split at h
  · exact absurd h (by simp)
  · rename_i a ha
    split at ha
    · simp only [Option.some.injEq] at ha h
      subst ha; subst h
      exact ⟨rfl, rfl, rfl, rfl, rfl⟩
    · exact absurd ha (by simp)

theorem main_on_timer_idle (s : Sys) (hd : s.rx_line_done = 0) (hp : s.rx_line_pos < 255) :
    main_on_timer s = some s := by
  have : ¬ 255 ≤ s.rx_line_pos := by omega
  simp [main_on_timer, hd, this]

theorem main_on_timer_restart (s : Sys) (hlen : s.rx_line.length = 255)
    (hc : s.rx_line_done ≠ 0 ∨ 255 ≤ s.rx_line_pos) (hr : s.rx_line.take 6 = str_reset) :
    main_on_timer s = some { s with restarts := s.restarts + 1, rx_line_done := 0,
                                    rx_line_pos := 0, rx_line := s.rx_line.set 0 0 } := by
  have h1 := cmp_reset_eq s.rx_line (by omega)
  rw [hr] at h1
  simp only [main_on_timer, hc, if_true, h1, decide_True]
  rw [rx_clear_eq _ (by simp only; omega)]

theorem main_on_timer_echo (s : Sys) (hlen : s.rx_line.length = 255)
    (hc : s.rx_line_done ≠ 0 ∨ 255 ≤ s.rx_line_pos) (hr : s.rx_line.take 6 ≠ str_reset)
    (pre rest : List Nat) (hs : s.rx_line = pre ++ 0 :: rest) (h0 : 0 ∉ pre) :
    ∃ s1, main_on_timer s = some s1 ∧ s1.rx_line = s.rx_line.set 0 0 ∧
      s1.rx_line_pos = 0 ∧ s1.rx_line_done = 0 ∧ s1.restarts = s.restarts ∧
      s1.uart.tx_fifo = s.uart.tx_fifo ++ ([13, 10, 62, 32] ++ pre ++ [13, 10]) := by
  have h1 := cmp_reset_eq s.rx_line (by omega)
  obtain ⟨u1, a1, b1⟩ := uart_str_out_prompt s.uart
  obtain ⟨u2, a2, b2⟩ := uart_str_out_terminated pre rest h0 u1
  obtain ⟨u3, a3, b3⟩ := uart_str_out_crlf u2
  rw [← hs] at a2
  refine ⟨{ s with uart := u3, rx_line_done := 0, rx_line_pos := 0,
                   rx_line := s.rx_line.set 0 0 }, ?_, rfl, rfl, rfl, rfl, ?_⟩
  · simp only [main_on_timer, hc, if_true, h1, hr, decide_False, a1, a2, a3]
    rw [rx_clear_eq _ (by simp only; omega)]
  · simp [b3, b2, b1]

theorem main_on_timer_overrun (s : Sys) (hlen : s.rx_line.length = 255)
    (hc : s.rx_line_done ≠ 0 ∨ 255 ≤ s.rx_line_pos) (h0 : 0 ∉ s.rx_line) :
    main_on_timer s = none := by
  have h1 := cmp_reset_eq s.rx_line (by omega)
  have hr : s.rx_line.take 6 ≠ str_reset := fun h =>
    h0 ((take_six_eq_reset_iff s.rx_line).mp h).1
  obtain ⟨u1, a1, _⟩ := uart_str_out_prompt s.uart
  simp [main_on_timer, hc, h1, hr, a1, uart_str_out_unterminated s.rx_line h0 u1]

/-- Whatever the timer callback returns after taking the processing branch
has the line variables reset. -/
theorem main_on_timer_post (s s1 : Sys) (hc : s.rx_line_done ≠ 0 ∨ 255 ≤ s.rx_line_pos)
    (h : main_on_timer s = some s1) :
    s1.rx_line = s.rx_line.set 0 0 ∧ s1.rx_line_pos = 0 ∧ s1.rx_line_done = 0 := by
  simp only [main_on_timer, hc, if_true] at h
  split at h
  · exact absurd h (by simp)
  · obtain ⟨e1, e2, e3, _, _⟩ := rx_clear_post _ _ h
    exact ⟨e1, e2, e3⟩
  · split at h
    · exact absurd h (by simp)
    · split at h
      · exact absurd h (by simp)
      · split at h
        · exact absurd h (by simp)
        · obtain ⟨e1, e2, e3, _, _⟩ := rx_clear_post _ _ h
          exact ⟨e1, e2, e3⟩

/-- When the line is not the command word, the timer callback does not call
`system_restart`. -/
theorem main_on_timer_no_restart (s s1 : Sys) (hlen : s.rx_line.length = 255)
    (hr : s.rx_line.take 6 ≠ str_reset) (h : main_on_timer s = some s1) :
    s1.restarts = s.restarts := by
  have h1 := cmp_reset_eq s.rx_line (by omega)
  simp only [hr, decide_False] at h1
  unfold main_on_timer at h
  split at h
  · simp only [h1] at h
    split at h
    · exact absurd h (by simp)
    · split at h
      · exact absurd h (by simp)
      · split at h
        · exact absurd h (by simp)
        · obtain ⟨_, _, _, e4, _⟩ := rx_clear_post _ _ h
          exact e4
  · simp only [Option.some.injEq] at h
    rw [← h]

/-! ## A line followed by CR, then one timer tick -/

theorem c_str_append_cons_zero (w rest : List Nat) : c_str (w ++ 0 :: rest) = c_str w := by
  induction w with
  | nil => simp [c_str]
  | cons c w ih =>
      by_cases hc : c = 0
      · simp [c_str, hc]
      · simp [c_str, hc, ih]

/-- From position 0, the bytes of `w` (no CR, at most 254 of them) followed by
CR leave the line `w`, terminated, in the array; the timer callback then
restarts when the C string in `w` is the command word and echoes that C string
otherwise. -/
theorem dispatch_line (s : Sys) (w : List Nat) (bs : List (List Nat))
    (hlen : s.rx_line.length = 255) (hpos : s.rx_line_pos = 0)
    (hwl : w.length ≤ 254) (hcr : 13 ∉ w) (hbs : bs.flatten = w ++ [13]) :
    ∃ s1, deliver s bs = some s1 ∧
      s1.rx_line = w ++ 0 :: s.rx_line.drop (w.length + 1) ∧ s1.rx_line.length = 255 ∧
      s1.rx_line_pos = w.length + 1 ∧ s1.rx_line_done = 1 ∧ s1.restarts = s.restarts ∧
      (c_str w = reset_word →
        ∃ s2, main_on_timer s1 = some s2 ∧ s2.restarts = s1.restarts + 1 ∧ s2.uart = s1.uart) ∧
      (c_str w ≠ reset_word →
        ∃ s2, main_on_timer s1 = some s2 ∧ s2.restarts = s1.restarts ∧
          s2.uart.tx_fifo = s1.uart.tx_fifo ++ ([13, 10, 62, 32] ++ c_str w ++ [13, 10])) := by
  obtain ⟨s1, e1, e2, e3, e4, e5, _⟩ := rx_loop_line w hcr s hlen hpos hwl
  have hl1 : s1.rx_line.length = 255 := by
    rw [e2]; simp [hlen]; omega
  have hc1 : s1.rx_line_done ≠ 0 ∨ 255 ≤ s1.rx_line_pos := Or.inl (by simp [e4])
  have hz : (0 : Nat) ∈ s1.rx_line := by rw [e2]; simp
  have hcs : c_str s1.rx_line = c_str w := by rw [e2]; exact c_str_append_cons_zero _ _
  refine ⟨s1, ?_, e2, hl1, e3, e4, e5, ?_, ?_⟩
  · rw [deliver_flatten, hbs]; exact e1
  · intro hw
    have hr : s1.rx_line.take 6 = str_reset :=
      (take_six_eq_reset_iff _).mpr ⟨hz, by rw [hcs]; exact hw⟩
    exact ⟨_, main_on_timer_restart s1 hl1 hc1 hr, rfl, rfl⟩
  · intro hw
    have hr : s1.rx_line.take 6 ≠ str_reset := fun h =>
      hw (by rw [← hcs]; exact ((take_six_eq_reset_iff _).mp h).2)
    obtain ⟨rest, hrest⟩ := c_str_split s1.rx_line hz
    obtain ⟨s2, a1, _, _, _, a5, a6⟩ :=
      main_on_timer_echo s1 hl1 hc1 hr (c_str s1.rx_line) rest hrest (c_str_no_zero _)
    rw [hcs] at a6
    exact ⟨s2, a1, a5, a6⟩

/-- From position 0 with the flag clear, 255 or more bytes other than CR fill
the array with the first 255 of them and leave the position at 255. -/
theorem rx_loop_overflow (s : Sys) (w : List Nat) (hlen : s.rx_line.length = 255)
    (hpos : s.rx_line_pos = 0) (hcr : 13 ∉ w) (hwl : 255 ≤ w.length) :
    ∃ s1, rx_loop s w = some s1 ∧ s1.rx_line = w.take 255 ∧ s1.rx_line_pos = 255 ∧
      s1.rx_line_done = s.rx_line_done ∧ s1.restarts = s.restarts ∧
      s1.uart.tx_fifo = s.uart.tx_fifo ++ w := by
  have h1 : 13 ∉ w.take 255 := fun h => hcr (List.mem_of_mem_take h)
  have h2 : 13 ∉ w.drop 255 := fun h => hcr (List.mem_of_mem_drop h)
  have hl : (w.take 255).length = 255 := by simp; omega
  obtain ⟨s1, e1, e2, e3, e4, e5, e6⟩ :=
    rx_loop_plain (w.take 255) h1 s [] s.rx_line (by simp) (by simp [hpos])
      (by omega) (by omega)
  have hd : s.rx_line.drop 255 = [] := List.drop_of_length_le (by omega)
  rw [hl, hd] at e2
  rw [hl, hpos] at e3
  obtain ⟨s2, f1, f2, f3, f4, f5, f6⟩ := rx_loop_dropped (w.drop 255) h2 s1 (by omega)
  refine ⟨s2, ?_, ?_, ?_, ?_, ?_, ?_⟩
  · rw [← List.take_append_drop 255 w, rx_loop_append, e1]; exact f1
  · rw [f2, e2]; simp
  · rw [f3, e3]
  · rw [f4, e4]
  · rw [f5, e5]
  · rw [f6, e6, List.append_assoc, List.take_append_drop]

/-! ## Claims -/

theorem init_length (u : Uart) : (init u).rx_line.length = 255 :=
  List.length_replicate 255 0

theorem line_state_length (w : List Nat) (h : w.length ≤ 255) :
    (line_state w).rx_line.length = 255 := by
  unfold line_state
  rw [List.length_append, List.length_replicate]
  omega

/-- C1: for every state with a 255-byte `rx_line`, one call of `main_on_timer`
calls `system_restart` if and only if the dispatch condition holds
(`rx_line_done != 0` or `rx_line_pos >= 255`) and `rx_line` starts with the six
bytes `r e s e t 0`, that is, holds a 0 and reads as the C string `reset`. In
particular the lines `rese`, `reset2`, the empty line and `Reset` never
restart. -/
theorem C1_restart_iff_reset (s : Sys) (hlen : s.rx_line.length = 255) :
    ((∃ s1, main_on_timer s = some s1 ∧ s1.restarts = s.restarts + 1) ↔
      ((s.rx_line_done ≠ 0 ∨ 255 ≤ s.rx_line_pos) ∧
        s.rx_line.take 6 = [114, 101, 115, 101, 116, 0])) ∧
    (s.rx_line.take 6 = [114, 101, 115, 101, 116, 0] ↔
      (0 ∈ s.rx_line ∧ c_str s.rx_line = [114, 101, 115, 101, 116])) ∧
    (∀ w ∈ [[114, 101, 115, 101], [114, 101, 115, 101, 116, 50], [], [82, 101, 115, 101, 116]],
      ∀ rest, s.rx_line = w ++ 0 :: rest →
        ¬ ∃ s1, main_on_timer s = some s1 ∧ s1.restarts = s.restarts + 1) := by
  have key : (∃ s1, main_on_timer s = some s1 ∧ s1.restarts = s.restarts + 1) ↔
      ((s.rx_line_done ≠ 0 ∨ 255 ≤ s.rx_line_pos) ∧ s.rx_line.take 6 = str_reset) := by
    constructor
    · rintro ⟨s1, h1, h2⟩
      by_cases hc : s.rx_line_done ≠ 0 ∨ 255 ≤ s.rx_line_pos
      · refine ⟨hc, ?_⟩
        by_contra hr
        have := main_on_timer_no_restart s s1 hlen hr h1
        omega
      · have hd : s.rx_line_done = 0 := by
          by_contra h; exact hc (Or.inl h)
        have hp : s.rx_line_pos < 255 := by
          by_contra h; exact hc (Or.inr (by omega))
        rw [main_on_timer_idle s hd hp] at h1
        simp only [Option.some.injEq] at h1
        rw [← h1] at h2
        omega
    · rintro ⟨hc, hr⟩
      exact ⟨_, main_on_timer_restart s hlen hc hr, rfl⟩
  refine ⟨key, take_six_eq_reset_iff s.rx_line, ?_⟩
  intro w hw rest hs hex
  have hr := (key.mp hex).2
  rw [hs] at hr
  simp only [List.mem_cons, List.mem_singleton, List.not_mem_nil, or_false] at hw
  rcases hw with h | h | h | h <;> subst h <;> simp [str_reset] at hr

/-- C1 at concrete states: a 255-byte array holding `reset`, flag set,
restarts; the same array with the flag clear and position 6 does not. -/
theorem C1_restart_iff_reset_witness :
    (line_state [114, 101, 115, 101, 116]).rx_line.length = 255 ∧
    (∃ s1, main_on_timer (line_state [114, 101, 115, 101, 116]) = some s1 ∧
      s1.restarts = (line_state [114, 101, 115, 101, 116]).restarts + 1) ∧
    ¬ (∃ s1, main_on_timer { line_state [114, 101, 115, 101, 116] with rx_line_done := 0 }
        = some s1 ∧ s1.restarts = 0 + 1) :=
  ⟨line_state_length _ (by decide),
   (C1_restart_iff_reset (line_state [114, 101, 115, 101, 116])
     (line_state_length _ (by decide))).1.mpr ⟨Or.inl (by decide), by rfl⟩,
   fun h => absurd
     ((C1_restart_iff_reset { line_state [114, 101, 115, 101, 116] with rx_line_done := 0 }
        (line_state_length _ (by decide))).1.mp h).1 (by decide)⟩

/-- C2: from the empty state (position 0, flag 0, 255-byte array), for every
line `w` of at most 254 bytes holding neither 0x0D nor 0x00 and different from
`reset`, delivering `w` and then 0x0D to the receive handler, in any split into
batches, and then calling `main_on_timer` once does not call `system_restart`
and makes `main_on_timer` transmit exactly `\r\n> `, then `w`, then `\r\n`. -/
theorem C2_echo_framing (s : Sys) (w : List Nat) (bs : List (List Nat))
    (hlen : s.rx_line.length = 255) (hpos : s.rx_line_pos = 0) (_hdone : s.rx_line_done = 0)
    (hwl : w.length ≤ 254) (hcr : 13 ∉ w) (h0 : 0 ∉ w) (hne : w ≠ [114, 101, 115, 101, 116])
    (hbs : bs.flatten = w ++ [13]) :
    ∃ s1 s2, deliver s bs = some s1 ∧ main_on_timer s1 = some s2 ∧
      s2.restarts = s1.restarts ∧
      s2.uart.tx_fifo = s1.uart.tx_fifo ++ ([13, 10, 62, 32] ++ w ++ [13, 10]) := by
  obtain ⟨s1, e1, _, _, _, _, _, _, hecho⟩ := dispatch_line s w bs hlen hpos hwl hcr hbs
  have hcw : c_str w = w := c_str_of_no_zero w h0
  obtain ⟨s2, a1, a2, a3⟩ := hecho (by rw [hcw]; exact hne)
  rw [hcw] at a3
  exact ⟨s1, s2, e1, a1, a2, a3⟩

/-- C2 at the line `reset2`, delivered in two batches after start-up: the
dispatcher transmits `\r\n> reset2\r\n`. -/
theorem C2_echo_framing_witness :
    ∃ s1 s2, deliver (init { tx_cnt := [], tx_fifo := [] })
        [[114, 101, 115], [101, 116, 50, 13]] = some s1 ∧
      main_on_timer s1 = some s2 ∧ s2.restarts = s1.restarts ∧
      s2.uart.tx_fifo = s1.uart.tx_fifo ++
        ([13, 10, 62, 32] ++ [114, 101, 115, 101, 116, 50] ++ [13, 10]) :=
  C2_echo_framing (init { tx_cnt := [], tx_fifo := [] }) [114, 101, 115, 101, 116, 50]
    [[114, 101, 115], [101, 116, 50, 13]] (init_length _) rfl rfl (by decide) (by decide)
    (by decide) (by decide) (by decide)

/-- C3, counterexample: the six bytes `r e s e t 0` are a line without 0x0D
that differs from the five bytes of `reset`, and yet delivering them and 0x0D
after start-up makes the next `main_on_timer` call `system_restart`. -/
theorem C3_counterexample :
    ([114, 101, 115, 101, 116, 0] : List Nat) ≠ [114, 101, 115, 101, 116] ∧
    13 ∉ ([114, 101, 115, 101, 116, 0] : List Nat) ∧
    ∃ s1 s2, deliver (init { tx_cnt := [], tx_fifo := [] })
        [[114, 101, 115, 101, 116, 0] ++ [13]] = some s1 ∧
      main_on_timer s1 = some s2 ∧ s2.restarts = s1.restarts + 1 := by
  refine ⟨by decide, by decide, ?_⟩
  obtain ⟨s1, e1, _, _, _, _, _, hres, _⟩ :=
    dispatch_line (init { tx_cnt := [], tx_fifo := [] }) [114, 101, 115, 101, 116, 0]
      [[114, 101, 115, 101, 116, 0] ++ [13]] (init_length _) rfl (by decide) (by decide)
      (by decide)
  obtain ⟨s2, a1, a2, _⟩ := hres (by decide)
  exact ⟨s1, s2, e1, a1, a2⟩

/-- C3, amended: from the empty state, for every line `w` of at most 254
bytes other than 0x0D, delivering `w` and 0x0D and then calling `main_on_timer`
calls `system_restart` if and only if the bytes of `w` before its first 0x00
(all of `w` when it has none) are exactly `reset`; every other `w` takes the
echo branch, which transmits `\r\n> `, those bytes, and `\r\n`. -/
theorem C3_restart_iff_c_str_reset (s : Sys) (w : List Nat) (bs : List (List Nat))
    (hlen : s.rx_line.length = 255) (hpos : s.rx_line_pos = 0) (_hdone : s.rx_line_done = 0)
    (hwl : w.length ≤ 254) (hcr : 13 ∉ w) (hbs : bs.flatten = w ++ [13]) :
    ∃ s1, deliver s bs = some s1 ∧
      ((∃ s2, main_on_timer s1 = some s2 ∧ s2.restarts = s1.restarts + 1) ↔
        c_str w = [114, 101, 115, 101, 116]) ∧
      (c_str w ≠ [114, 101, 115, 101, 116] →
        ∃ s2, main_on_timer s1 = some s2 ∧ s2.restarts = s1.restarts ∧
          s2.uart.tx_fifo = s1.uart.tx_fifo ++ ([13, 10, 62, 32] ++ c_str w ++ [13, 10])) := by
  obtain ⟨s1, e1, _, _, _, _, _, hres, hecho⟩ := dispatch_line s w bs hlen hpos hwl hcr hbs
  refine ⟨s1, e1, ⟨?_, ?_⟩, hecho⟩
  · rintro ⟨s2, h1, h2⟩
    by_contra hw
    obtain ⟨s3, a1, a2, _⟩ := hecho hw
    rw [h1] at a1
    simp only [Option.some.injEq] at a1
    rw [a1] at h2
    omega
  · intro hw
    obtain ⟨s2, a1, a2, _⟩ := hres hw
    exact ⟨s2, a1, a2⟩

/-- C3 amended, at the line `Reset` after start-up. -/
theorem C3_restart_iff_c_str_reset_witness :
    ∃ s1, deliver (init { tx_cnt := [], tx_fifo := [] }) [[82, 101, 115, 101, 116, 13]] = some s1 ∧
      ((∃ s2, main_on_timer s1 = some s2 ∧ s2.restarts = s1.restarts + 1) ↔
        c_str [82, 101, 115, 101, 116] = [114, 101, 115, 101, 116]) ∧
      (c_str [82, 101, 115, 101, 116] ≠ [114, 101, 115, 101, 116] →
        ∃ s2, main_on_timer s1 = some s2 ∧ s2.restarts = s1.restarts ∧
          s2.uart.tx_fifo = s1.uart.tx_fifo ++
            ([13, 10, 62, 32] ++ c_str [82, 101, 115, 101, 116] ++ [13, 10])) :=
  C3_restart_iff_c_str_reset (init { tx_cnt := [], tx_fifo := [] }) [82, 101, 115, 101, 116]
    [[82, 101, 115, 101, 116, 13]] (init_length _) rfl rfl (by decide) (by decide) (by decide)

/-- C4: from the empty state (position 0, flag 0, 255-byte array), for every
byte sequence `w` without 0x0D and of length at most 254, after the receive
handler has processed `w` in order, in one batch or split over several
invocations, the first `|w|` bytes of `rx_line` are `w`, `rx_line_pos` is `|w|`
and `rx_line_done` is still 0. -/
theorem C4_verbatim_accumulation (s : Sys) (w : List Nat) (bs : List (List Nat))
    (hlen : s.rx_line.length = 255) (hpos : s.rx_line_pos = 0) (hdone : s.rx_line_done = 0)
    (hcr : 13 ∉ w) (hwl : w.length ≤ 254) (hbs : bs.flatten = w) :
    ∃ s1, deliver s bs = some s1 ∧ s1.rx_line.take w.length = w ∧
      s1.rx_line.length = 255 ∧ s1.rx_line_pos = w.length ∧ s1.rx_line_done = 0 := by
  obtain ⟨s1, e1, e2, e3, e4, _, _⟩ :=
    rx_loop_plain w hcr s [] s.rx_line (by simp) (by simp [hpos]) (by omega) (by omega)
  simp only [List.nil_append] at e2
  refine ⟨s1, ?_, ?_, ?_, ?_, ?_⟩
  · rw [deliver_flatten, hbs]; exact e1
  · rw [e2]; exact List.take_left' rfl
  · rw [e2]; simp [hlen]; omega
  · rw [e3, hpos]; simp
  · rw [e4, hdone]

/-- C4 at the three bytes `a b c` delivered in two batches after start-up. -/
theorem C4_verbatim_accumulation_witness :
    ∃ s1, deliver (init { tx_cnt := [], tx_fifo := [] }) [[97], [98, 99]] = some s1 ∧
      s1.rx_line.take ([97, 98, 99] : List Nat).length = [97, 98, 99] ∧
      s1.rx_line.length = 255 ∧ s1.rx_line_pos = ([97, 98, 99] : List Nat).length ∧
      s1.rx_line_done = 0 :=
  C4_verbatim_accumulation (init { tx_cnt := [], tx_fifo := [] }) [97, 98, 99] [[97], [98, 99]]
    (init_length _) rfl rfl (by decide) (by decide) (by decide)

/-- C5: from the empty state, for every `N <= 254` and every sequence `w` of
`N` bytes other than 0x0D, after the receive handler has processed `w` and
then one 0x0D, `rx_line_done` is 1, the first `N` bytes of `rx_line` are `w`,
`rx_line[N]` is 0, `rx_line_pos` is `N + 1`, and the bytes behind index `N`
are what they were: the CR byte is not stored. -/
theorem C5_line_completion (s : Sys) (N : Nat) (w : List Nat) (bs : List (List Nat))
    (hlen : s.rx_line.length = 255) (hpos : s.rx_line_pos = 0) (_hdone : s.rx_line_done = 0)
    (hN : N ≤ 254) (hw : w.length = N) (hcr : 13 ∉ w) (hbs : bs.flatten = w ++ [13]) :
    ∃ s1, deliver s bs = some s1 ∧ s1.rx_line_done = 1 ∧ s1.rx_line.take N = w ∧
      s1.rx_line[N]? = some 0 ∧ s1.rx_line_pos = N + 1 ∧
      s1.rx_line = w ++ 0 :: s.rx_line.drop (N + 1) := by
  subst hw
  obtain ⟨s1, e1, e2, e3, e4, _, _⟩ := rx_loop_line w hcr s hlen hpos hN
  refine ⟨s1, ?_, e4, ?_, ?_, e3, e2⟩
  · rw [deliver_flatten, hbs]; exact e1
  · rw [e2]; exact List.take_left' rfl
  · rw [e2, List.getElem?_append_right (Nat.le_refl _)]; simp

/-- C5 at the line `hi` after start-up. -/
theorem C5_line_completion_witness :
    ∃ s1, deliver (init { tx_cnt := [], tx_fifo := [] }) [[104, 105, 13]] = some s1 ∧
      s1.rx_line_done = 1 ∧ s1.rx_line.take 2 = [104, 105] ∧ s1.rx_line[2]? = some 0 ∧
      s1.rx_line_pos = 2 + 1 ∧
      s1.rx_line = [104, 105] ++ 0 ::
        (init { tx_cnt := [], tx_fifo := [] }).rx_line.drop (2 + 1) :=
  C5_line_completion (init { tx_cnt := [], tx_fifo := [] }) 2 [104, 105] [[104, 105, 13]]
    (init_length _) rfl rfl (by decide) rfl (by decide) (by decide)

set_option maxRecDepth 100000 in
/-- C6, the code at the failing input: after start-up the empty line is
completed by one 0x0D (flag set, terminator at index 0, position 1); 254
further bytes `a` bring the position to 255; the next 0x0D makes the handler
store the terminator at `rx_line[255]`, outside the 255-byte array, so the
call has no defined result. -/
theorem C6_frozen_line_failing_input :
    (deliver (init { tx_cnt := [], tx_fifo := [] }) [[13]]).map
        (fun s => (s.rx_line[0]?, s.rx_line_pos, s.rx_line_done)) = some (some 0, 1, 1) ∧
    (deliver (init { tx_cnt := [], tx_fifo := [] }) [[13], List.replicate 254 97]).map
        (fun s => (s.rx_line[0]?, s.rx_line_pos, s.rx_line_done)) = some (some 0, 255, 1) ∧
    deliver (init { tx_cnt := [], tx_fifo := [] }) [[13], List.replicate 254 97, [13]] = none ∧
    deliver (init { tx_cnt := [], tx_fifo := [] })
      [[13], List.replicate 254 97, [13], [98]] = none := by
  decide

/-- C7: from the empty state, for every byte sequence `w` of length at least
255 without 0x0D, after the receive handler has processed it (in any split
into batches) `rx_line_pos` is exactly 255, `rx_line_done` is 0 and `rx_line`
holds the first 255 bytes of `w`; the same holds after every shorter run of
at least 255 of the bytes, so each later byte changed none of the three; and
the dispatch condition of `main_on_timer` holds, the next call not being a
no-op. -/
theorem C7_overflow_capped (s : Sys) (w : List Nat) (bs : List (List Nat))
    (hlen : s.rx_line.length = 255) (hpos : s.rx_line_pos = 0) (hdone : s.rx_line_done = 0)
    (hcr : 13 ∉ w) (hwl : 255 ≤ w.length) (hbs : bs.flatten = w) :
    ∃ s1, deliver s bs = some s1 ∧ s1.rx_line = w.take 255 ∧ s1.rx_line_pos = 255 ∧
      s1.rx_line_done = 0 ∧
      (∀ k, 255 ≤ k → ∃ sk, rx_loop s (w.take k) = some sk ∧ sk.rx_line = s1.rx_line ∧
        sk.rx_line_pos = s1.rx_line_pos ∧ sk.rx_line_done = s1.rx_line_done) ∧
      (s1.rx_line_done ≠ 0 ∨ 255 ≤ s1.rx_line_pos) ∧ main_on_timer s1 ≠ some s1 := by
  obtain ⟨s1, e1, e2, e3, e4, _, _⟩ := rx_loop_overflow s w hlen hpos hcr hwl
  have hc : s1.rx_line_done ≠ 0 ∨ 255 ≤ s1.rx_line_pos := Or.inr (by omega)
  refine ⟨s1, ?_, e2, e3, by rw [e4, hdone], ?_, hc, ?_⟩
  · rw [deliver_flatten, hbs]; exact e1
  · intro k hk
    have hcr' : 13 ∉ w.take k := fun h => hcr (List.mem_of_mem_take h)
    have hl' : 255 ≤ (w.take k).length := by simp; omega
    obtain ⟨sk, f1, f2, f3, f4, _, _⟩ := rx_loop_overflow s (w.take k) hlen hpos hcr' hl'
    refine ⟨sk, f1, ?_, by rw [f3, e3], by rw [f4, e4]⟩
    rw [f2, e2, List.take_take, Nat.min_eq_left hk]
  · intro h
    have := (main_on_timer_post s1 s1 hc h).2.1
    omega

/-- C7 at 256 bytes `a` delivered in two batches of 128 after start-up. -/
theorem C7_overflow_capped_witness :
    ∃ s1, deliver (init { tx_cnt := [], tx_fifo := [] })
        [List.replicate 128 97, List.replicate 128 97] = some s1 ∧
      s1.rx_line = (List.replicate 128 97 ++ List.replicate 128 97).take 255 ∧
      s1.rx_line_pos = 255 ∧ s1.rx_line_done = 0 ∧
      (∀ k, 255 ≤ k → ∃ sk, rx_loop (init { tx_cnt := [], tx_fifo := [] })
          ((List.replicate 128 97 ++ List.replicate 128 97).take k) = some sk ∧
        sk.rx_line = s1.rx_line ∧
        sk.rx_line_pos = s1.rx_line_pos ∧ sk.rx_line_done = s1.rx_line_done) ∧
      (s1.rx_line_done ≠ 0 ∨ 255 ≤ s1.rx_line_pos) ∧ main_on_timer s1 ≠ some s1 :=
  C7_overflow_capped (init { tx_cnt := [], tx_fifo := [] })
    (List.replicate 128 97 ++ List.replicate 128 97)
    [List.replicate 128 97, List.replicate 128 97] (init_length _) rfl rfl
    (by simp only [List.mem_append, List.mem_replicate]; decide)
    (by simp only [List.length_append, List.length_replicate]; decide)
    (by simp only [List.flatten_cons, List.flatten_nil, List.append_nil])

/-- An overflowed line without a 0 byte cannot be echoed inside the array:
from the empty state, after at least 255 bytes that are neither 0x0D nor 0x00,
`uart_str_out(rx_line)` reads past the 255 bytes, so that `main_on_timer` has
no defined result. -/
theorem overflow_dispatch_overruns (s : Sys) (w : List Nat) (bs : List (List Nat))
    (hlen : s.rx_line.length = 255) (hpos : s.rx_line_pos = 0)
    (hcr : 13 ∉ w) (h0 : 0 ∉ w) (hwl : 255 ≤ w.length) (hbs : bs.flatten = w) :
    ∃ s1, deliver s bs = some s1 ∧ s1.rx_line = w.take 255 ∧ s1.rx_line_pos = 255 ∧
      main_on_timer s1 = none := by
  obtain ⟨s1, e1, e2, e3, _, _, _⟩ := rx_loop_overflow s w hlen hpos hcr hwl
  refine ⟨s1, ?_, e2, e3, ?_⟩
  · rw [deliver_flatten, hbs]; exact e1
  · apply main_on_timer_overrun s1
    · rw [e2]; simp; omega
    · exact Or.inr (by omega)
    · rw [e2]; exact fun h => h0 (List.mem_of_mem_take h)

/-- C8, the code at the failing input: 255 bytes `a` delivered after start-up
in batches of 128 and 127 fill `rx_line` with 255 bytes `a`, none of them 0;
`main_on_timer` then takes the echo branch and `uart_str_out(rx_line)` reads
`rx_line[255]`, outside the array, so the call has no defined result. -/
theorem C8_overflow_echo_failing_input :
    ∃ s1, deliver (init { tx_cnt := [], tx_fifo := [] })
        [List.replicate 128 97, List.replicate 127 97] = some s1 ∧
      s1.rx_line = (List.replicate 128 97 ++ List.replicate 127 97).take 255 ∧
      s1.rx_line_pos = 255 ∧ main_on_timer s1 = none :=
  overflow_dispatch_overruns (init { tx_cnt := [], tx_fifo := [] })
    (List.replicate 128 97 ++ List.replicate 127 97)
    [List.replicate 128 97, List.replicate 127 97] (init_length _) rfl
    (by simp only [List.mem_append, List.mem_replicate]; decide)
    (by simp only [List.mem_append, List.mem_replicate]; decide)
    (by simp only [List.length_append, List.length_replicate]; decide)
    (by simp only [List.flatten_cons, List.flatten_nil, List.append_nil])

theorem c_str_set_zero (a : List Nat) : c_str (a.set 0 0) = [] := by
  cases a with
  | nil => rfl
  | cons c t => simp [c_str]

/-- C9: for every state with a 255-byte `rx_line` in which the dispatch
condition holds and the line is not `reset`, whenever `main_on_timer` returns,
`rx_line_pos` is 0, `rx_line_done` is 0 and `rx_line[0]` is 0, so the buffer
reads as the empty string, `system_restart` was not called and the next tick
is a no-op (the state is the waiting one); and `main_on_timer` does return
whenever `rx_line` holds a 0 byte, which is when the echo stays inside the
array. -/
theorem C9_reset_after_dispatch (s : Sys) (hlen : s.rx_line.length = 255)
    (hc : s.rx_line_done ≠ 0 ∨ 255 ≤ s.rx_line_pos)
    (hne : s.rx_line.take 6 ≠ [114, 101, 115, 101, 116, 0]) :
    (∀ s1, main_on_timer s = some s1 →
      s1.rx_line_pos = 0 ∧ s1.rx_line_done = 0 ∧ s1.rx_line[0]? = some 0 ∧
        c_str s1.rx_line = [] ∧ s1.restarts = s.restarts ∧ main_on_timer s1 = some s1) ∧
    (0 ∈ s.rx_line → ∃ s1, main_on_timer s = some s1) := by
  constructor
  · intro s1 h
    obtain ⟨e1, e2, e3⟩ := main_on_timer_post s s1 hc h
    refine ⟨e2, e3, ?_, ?_, main_on_timer_no_restart s s1 hlen hne h,
      main_on_timer_idle s1 e3 (by omega)⟩
    · rw [e1, List.getElem?_set]; simp [hlen]
    · rw [e1]; exact c_str_set_zero _
  · intro h0
    obtain ⟨rest, hrest⟩ := c_str_split s.rx_line h0
    obtain ⟨s1, a1, _⟩ :=
      main_on_timer_echo s hlen hc hne (c_str s.rx_line) rest hrest (c_str_no_zero _)
    exact ⟨s1, a1⟩

set_option maxRecDepth 100000 in
/-- C9 at the completed line `hi`: the call returns the reset state. -/
theorem C9_reset_after_dispatch_witness :
    (∀ s1, main_on_timer (line_state [104, 105]) = some s1 →
      s1.rx_line_pos = 0 ∧ s1.rx_line_done = 0 ∧ s1.rx_line[0]? = some 0 ∧
        c_str s1.rx_line = [] ∧ s1.restarts = (line_state [104, 105]).restarts ∧
        main_on_timer s1 = some s1) ∧
    (0 ∈ (line_state [104, 105]).rx_line → ∃ s1, main_on_timer (line_state [104, 105]) = some s1) ∧
    0 ∈ (line_state [104, 105]).rx_line :=
  ⟨(C9_reset_after_dispatch (line_state [104, 105]) (line_state_length _ (by decide))
      (Or.inl (by decide)) (by decide)).1,
   (C9_reset_after_dispatch (line_state [104, 105]) (line_state_length _ (by decide))
      (Or.inl (by decide)) (by decide)).2,
   by decide⟩

/-- C10: for every state with `rx_line_done = 0` and `rx_line_pos < 255`,
`main_on_timer` returns the state it was given: no byte transmitted, no
restart, `rx_line`, `rx_line_pos` and `rx_line_done` unchanged; so any number
of ticks in a row is the identity on such a state; and the state that a
dispatch returns is such a state, the tick right after it being a no-op. -/
theorem C10_idle_tick_noop (s : Sys) (hd : s.rx_line_done = 0) (hp : s.rx_line_pos < 255) :
    main_on_timer s = some s ∧ (∀ n, ticks n s = some s) ∧
    (∀ s0 s1 : Sys, (s0.rx_line_done ≠ 0 ∨ 255 ≤ s0.rx_line_pos) →
      main_on_timer s0 = some s1 →
      s1.rx_line_done = 0 ∧ s1.rx_line_pos < 255 ∧ main_on_timer s1 = some s1) := by
  have h1 := main_on_timer_idle s hd hp
  refine ⟨h1, ?_, ?_⟩
  · intro n
    induction n with
    | zero => rfl
    | succ n ih => simp only [ticks, h1]; exact ih
  · intro s0 s1 hc h
    obtain ⟨_, e2, e3⟩ := main_on_timer_post s0 s1 hc h
    exact ⟨e3, by omega, main_on_timer_idle s1 e3 (by omega)⟩

/-- C10 at the state after start-up. -/
theorem C10_idle_tick_noop_witness :
    main_on_timer (init { tx_cnt := [], tx_fifo := [] })
      = some (init { tx_cnt := [], tx_fifo := [] }) ∧
    (∀ n, ticks n (init { tx_cnt := [], tx_fifo := [] })
      = some (init { tx_cnt := [], tx_fifo := [] })) ∧
    (∀ s0 s1 : Sys, (s0.rx_line_done ≠ 0 ∨ 255 ≤ s0.rx_line_pos) →
      main_on_timer s0 = some s1 →
      s1.rx_line_done = 0 ∧ s1.rx_line_pos < 255 ∧ main_on_timer s1 = some s1) :=
  C10_idle_tick_noop (init { tx_cnt := [], tx_fifo := [] }) rfl (by decide)

/-! ## Echo, flag ownership and backpressure -/

theorem rx_byte_eq_rx_store (s : Sys) (ch : Nat) :
    rx_byte s ch = rx_store { s with uart := uart_byte_out s.uart ch } ch := rfl

theorem rx_store_uart (s s1 : Sys) (ch : Nat) (h : rx_store s ch = some s1) :
    s1.uart = s.uart := by
  unfold rx_store at h
  split at h
  · split at h
    · exact absurd h (by simp)
    · simp only [Option.some.injEq] at h; subst h; rfl
  · split at h
    · split at h
      · exact absurd h (by simp)
      · simp only [Option.some.injEq] at h; subst h; rfl
    · simp only [Option.some.injEq] at h; subst h; rfl

theorem rx_store_done (s s1 : Sys) (ch : Nat) (h : rx_store s ch = some s1) :
    s1.rx_line_done = if ch = 13 then 1 else s.rx_line_done := by
  unfold rx_store at h
  split at h
  · rename_i hch
    split at h
    · exact absurd h (by simp)
    · simp only [Option.some.injEq] at h; subst h; simp [hch]
  · rename_i hch
    split at h
    · split at h
      · exact absurd h (by simp)
      · simp only [Option.some.injEq] at h; subst h; simp [hch]
    · simp only [Option.some.injEq] at h; subst h; simp [hch]

theorem rx_store_defined (s : Sys) (ch : Nat) (hlen : s.rx_line.length = 255)
    (h : ch ≠ 13 ∨ s.rx_line_pos < 255) : ∃ s1, rx_store s ch = some s1 := by
  by_cases hch : ch = 13
  · have hp : s.rx_line_pos < s.rx_line.length := by
      rcases h with h | h
      · exact absurd hch h
      · omega
    refine ⟨{ s with rx_line := s.rx_line.set s.rx_line_pos 0
                     rx_line_pos := (s.rx_line_pos + 1) % 256
                     rx_line_done := 1 }, ?_⟩
    simp only [rx_store, store, hch, if_true, hp]
  · by_cases hq : s.rx_line_pos < 255
    · have hp : s.rx_line_pos < s.rx_line.length := by omega
      refine ⟨{ s with rx_line := s.rx_line.set s.rx_line_pos ch
                       rx_line_pos := (s.rx_line_pos + 1) % 256 }, ?_⟩
      simp only [rx_store, store, hch, if_false, hq, if_true, hp]
    · exact ⟨s, by simp only [rx_store, hch, if_false, hq]⟩

theorem rx_loop_tx_fifo (bytes : List Nat) :
    ∀ s s1 : Sys, rx_loop s bytes = some s1 → s1.uart.tx_fifo = s.uart.tx_fifo ++ bytes := by
  induction bytes with
  | nil =>
      intro s s1 h
      simp only [rx_loop, Option.some.injEq] at h
      subst h; simp
  | cons c bytes ih =>
      intro s s1 h
      simp only [rx_loop] at h
      cases hb : rx_byte s c with
      | none => rw [hb] at h; exact absurd h (by simp)
      | some s2 =>
          rw [hb] at h
          have hu := rx_store_uart _ s2 c (by rw [← rx_byte_eq_rx_store]; exact hb)
          rw [ih s2 s1 h, hu]
          simp [uart_byte_out_tx_fifo]

theorem rx_loop_no_cr_defined (bytes : List Nat) (hcr : 13 ∉ bytes) :
    ∀ s : Sys, s.rx_line.length = 255 → ∃ s1, rx_loop s bytes = some s1 := by
  induction bytes with
  | nil => intro s _; exact ⟨s, rfl⟩
  | cons c bytes ih =>
      intro s hlen
      have hc : c ≠ 13 := fun h => hcr (by simp [h])
      have hcr' : 13 ∉ bytes := fun h => hcr (by simp [h])
      obtain ⟨s2, h2⟩ := rx_store_defined { s with uart := uart_byte_out s.uart c } c hlen
        (Or.inl hc)
      rw [← rx_byte_eq_rx_store] at h2
      have hl2 := (rx_byte_frozen s s2 c hlen h2).1
      obtain ⟨s1, h1⟩ := ih hcr' s2 hl2
      exact ⟨s1, by simp only [rx_loop, h2]; exact h1⟩

theorem rx_byte_oob_uart (stray : Sys → Nat → Sys) (s : Sys) (ch : Nat) :
    (rx_byte_oob stray s ch).uart = uart_byte_out s.uart ch := by
  cases h : rx_store { s with uart := uart_byte_out s.uart ch } ch with
  | none => simp only [rx_byte_oob, h]
  | some s2 =>
      simp only [rx_byte_oob, h]
      exact rx_store_uart _ s2 ch h

theorem rx_byte_oob_agrees (stray : Sys → Nat → Sys) (s s1 : Sys) (ch : Nat)
    (h : rx_byte s ch = some s1) : rx_byte_oob stray s ch = s1 := by
  rw [rx_byte_eq_rx_store] at h
  simp only [rx_byte_oob, h]

theorem rx_loop_oob_tx_fifo (stray : Sys → Nat → Sys) (bytes : List Nat) :
    ∀ s : Sys, (rx_loop_oob stray s bytes).uart.tx_fifo = s.uart.tx_fifo ++ bytes := by
  induction bytes with
  | nil => intro s; simp [rx_loop_oob]
  | cons c bytes ih =>
      intro s
      simp only [rx_loop_oob]
      rw [ih, rx_byte_oob_uart]
      simp [uart_byte_out_tx_fifo]

theorem rx_loop_oob_append (stray : Sys → Nat → Sys) (a b : List Nat) :
    ∀ s : Sys, rx_loop_oob stray s (a ++ b) = rx_loop_oob stray (rx_loop_oob stray s a) b := by
  induction a with
  | nil => intro s; rfl
  | cons c a ih => intro s; simp only [List.cons_append, rx_loop_oob]; exact ih _

theorem deliver_oob_flatten (stray : Sys → Nat → Sys) (bs : List (List Nat)) :
    ∀ s : Sys, deliver_oob stray s bs = rx_loop_oob stray s bs.flatten := by
  induction bs with
  | nil => intro s; rfl
  | cons b bs ih =>
      intro s
      simp only [deliver_oob, uart0_rx_intr_handler_oob, if_true, List.flatten_cons,
        rx_loop_oob_append]
      exact ih _

theorem rx_loop_oob_agrees (stray : Sys → Nat → Sys) (bytes : List Nat) :
    ∀ s s1 : Sys, rx_loop s bytes = some s1 → rx_loop_oob stray s bytes = s1 := by
  induction bytes with
  | nil =>
      intro s s1 h
      simp only [rx_loop, Option.some.injEq] at h
      exact h
  | cons c bytes ih =>
      intro s s1 h
      simp only [rx_loop] at h
      cases hb : rx_byte s c with
      | none => rw [hb] at h; exact absurd h (by simp)
      | some s2 =>
          rw [hb] at h
          simp only [rx_loop_oob, rx_byte_oob_agrees stray s s2 c hb]
          exact ih s2 s1 h

/-- With a 255-byte array the handler loop leaves the array only at a 0x0D
that arrives while the position is 255 or more. -/
theorem rx_loop_none (bytes : List Nat) :
    ∀ s : Sys, s.rx_line.length = 255 → rx_loop s bytes = none →
      ∃ pre post s1, bytes = pre ++ 13 :: post ∧ rx_loop s pre = some s1 ∧
        255 ≤ s1.rx_line_pos := by
  induction bytes with
  | nil => intro s _ h; exact absurd h (by simp [rx_loop])
  | cons c bytes ih =>
      intro s hlen h
      cases hb : rx_byte s c with
      | none =>
          have hnd : ¬ (c ≠ 13 ∨ s.rx_line_pos < 255) := by
            intro hd
            obtain ⟨s2, h2⟩ :=
              rx_store_defined { s with uart := uart_byte_out s.uart c } c hlen hd
            rw [← rx_byte_eq_rx_store, hb] at h2
            exact absurd h2 (by simp)
          have hc : c = 13 := by
            by_contra hc; exact hnd (Or.inl hc)
          have hp : 255 ≤ s.rx_line_pos := by
            by_contra hp; exact hnd (Or.inr (by omega))
          exact ⟨[], bytes, s, by rw [hc]; rfl, rfl, hp⟩
      | some s2 =>
          simp only [rx_loop, hb] at h
          have hl2 := (rx_byte_frozen s s2 c hlen hb).1
          obtain ⟨pre, post, s1, e1, e2, e3⟩ := ih s2 hl2 h
          refine ⟨c :: pre, post, s1, by rw [e1]; rfl, ?_, e3⟩
          simp only [rx_loop, hb]
          exact e2

/-- C11: for every starting state and every sequence of received bytes, in
any split into batches, 0x0D and 0x00 and dropped bytes included, the bytes
the receive handler writes to the transmit FIFO are exactly the received
bytes, each once, in arrival order, and nothing else. This holds whatever a
store outside the array does to the program variables (`stray`), so also for a
0x0D that arrives at position 255; wherever the handler stays inside the array
its result is the one of `deliver`, and with a 255-byte array it leaves the
array only at a 0x0D arriving at position 255 or more. -/
theorem C11_echo_round_trip (stray : Sys → Nat → Sys) (s : Sys) (bs : List (List Nat)) :
    (deliver_oob stray s bs).uart.tx_fifo = s.uart.tx_fifo ++ bs.flatten ∧
    (∀ s1, deliver s bs = some s1 →
      deliver_oob stray s bs = s1 ∧ s1.uart.tx_fifo = s.uart.tx_fifo ++ bs.flatten) ∧
    (s.rx_line.length = 255 → deliver s bs = none →
      ∃ pre post s1, bs.flatten = pre ++ 13 :: post ∧ rx_loop s pre = some s1 ∧
        255 ≤ s1.rx_line_pos) := by
  refine ⟨?_, ?_, ?_⟩
  · rw [deliver_oob_flatten]; exact rx_loop_oob_tx_fifo stray _ s
  · intro s1 h
    rw [deliver_flatten] at h
    exact ⟨by rw [deliver_oob_flatten]; exact rx_loop_oob_agrees stray _ s s1 h,
      rx_loop_tx_fifo _ s s1 h⟩
  · intro hlen h
    rw [deliver_flatten] at h
    exact rx_loop_none _ s hlen h

/-- C11 at the full state (position 255) and the bytes 0x0D, `b` received in
two batches: the first store leaves the array, and both bytes are echoed, here
with the position wrapping to 0 as the stray effect. -/
theorem C11_echo_round_trip_witness :
    (deliver_oob (fun s _ => { s with rx_line_pos := 0, rx_line_done := 1 }) full_state
        [[13], [98]]).uart.tx_fifo = full_state.uart.tx_fifo ++ [[13], [98]].flatten ∧
    deliver full_state [[13], [98]] = none :=
  ⟨(C11_echo_round_trip (fun s _ => { s with rx_line_pos := 0, rx_line_done := 1 }) full_state
      [[13], [98]]).1,
   by simp [deliver, uart0_rx_intr_handler, rx_loop,
        rx_byte_cr_overflow full_state (List.length_replicate 255 97) (Nat.le_refl 255)]⟩

/-- C12: for every state and every received byte, whenever the loop body of
the handler returns, `rx_line_done` is 1 if the byte is 0x0D and unchanged
otherwise, so it never goes from 1 to 0; for every state, whenever
`main_on_timer` returns, `rx_line_done` is 0 if the dispatch condition held and
unchanged otherwise, so it never goes from 0 to 1. With a 255-byte array the
loop body returns unless the byte is 0x0D at position 255 or more, and
`main_on_timer` returns when `rx_line` holds a 0 byte or the condition fails. -/
theorem C12_ready_signal_ownership (s : Sys) (ch : Nat) :
    (∀ s1, rx_byte s ch = some s1 →
      (s.rx_line_done = 1 → s1.rx_line_done = 1) ∧
      (ch = 13 → s1.rx_line_done = 1) ∧ (ch ≠ 13 → s1.rx_line_done = s.rx_line_done)) ∧
    (∀ s1, main_on_timer s = some s1 →
      (s.rx_line_done = 0 → s1.rx_line_done = 0) ∧
      ((s.rx_line_done ≠ 0 ∨ 255 ≤ s.rx_line_pos) → s1.rx_line_done = 0) ∧
      (¬ (s.rx_line_done ≠ 0 ∨ 255 ≤ s.rx_line_pos) → s1.rx_line_done = s.rx_line_done)) ∧
    (s.rx_line.length = 255 → (ch ≠ 13 ∨ s.rx_line_pos < 255) →
      ∃ s1, rx_byte s ch = some s1) ∧
    (s.rx_line.length = 255 → (0 ∈ s.rx_line ∨ ¬ (s.rx_line_done ≠ 0 ∨ 255 ≤ s.rx_line_pos)) →
      ∃ s1, main_on_timer s = some s1) := by
  refine ⟨?_, ?_, ?_, ?_⟩
  · intro s1 h
    have hd := rx_store_done _ s1 ch (by rw [← rx_byte_eq_rx_store]; exact h)
    simp only at hd
    refine ⟨?_, ?_, ?_⟩
    · intro h1
      by_cases hch : ch = 13
      · simp [hd, hch]
      · simp [hd, hch, h1]
    · intro hch; simp [hd, hch]
    · intro hch; simp [hd, hch]
  · intro s1 h
    have hidle : ¬ (s.rx_line_done ≠ 0 ∨ 255 ≤ s.rx_line_pos) → s1 = s := by
      intro hc
      have hd : s.rx_line_done = 0 := by
        by_contra h'; exact hc (Or.inl h')
      have hp : s.rx_line_pos < 255 := by
        by_contra h'; exact hc (Or.inr (by omega))
      rw [main_on_timer_idle s hd hp] at h
      simp only [Option.some.injEq] at h
      exact h.symm
    refine ⟨?_, ?_, ?_⟩
    · intro hd
      by_cases hc : s.rx_line_done ≠ 0 ∨ 255 ≤ s.rx_line_pos
      · exact (main_on_timer_post s s1 hc h).2.2
      · rw [hidle hc]; exact hd
    · intro hc
      exact (main_on_timer_post s s1 hc h).2.2
    · intro hc
      rw [hidle hc]
  · intro hlen h
    rw [rx_byte_eq_rx_store]
    exact rx_store_defined _ ch hlen h
  · intro hlen h
    by_cases hc : s.rx_line_done ≠ 0 ∨ 255 ≤ s.rx_line_pos
    · rcases h with h0 | h0
      · by_cases hr : s.rx_line.take 6 = str_reset
        · exact ⟨_, main_on_timer_restart s hlen hc hr⟩
        · obtain ⟨rest, hrest⟩ := c_str_split s.rx_line h0
          obtain ⟨s1, a1, _⟩ :=
            main_on_timer_echo s hlen hc hr (c_str s.rx_line) rest hrest (c_str_no_zero _)
          exact ⟨s1, a1⟩
      · exact absurd hc h0
    · have hd : s.rx_line_done = 0 := by
        by_contra h'; exact hc (Or.inl h')
      have hp : s.rx_line_pos < 255 := by
        by_contra h'; exact hc (Or.inr (by omega))
      exact ⟨s, main_on_timer_idle s hd hp⟩

/-- C12 at the state after start-up and the byte 0x0D: the loop body returns
with the flag set. -/
theorem C12_ready_signal_ownership_witness :
    ∃ s1, rx_byte (init { tx_cnt := [], tx_fifo := [] }) 13 = some s1 ∧ s1.rx_line_done = 1 :=
  ((C12_ready_signal_ownership (init { tx_cnt := [], tx_fifo := [] }) 13).2.2.1
      (init_length _) (Or.inr (by decide))).elim
    (fun s1 h1 =>
      ⟨s1, h1, ((C12_ready_signal_ownership (init { tx_cnt := [], tx_fifo := [] }) 13).1
        s1 h1).2.1 rfl⟩)

theorem first_below_split (readings : List Nat) (h : ∃ r ∈ readings, r < 128) :
    ∃ pre r post, readings = pre ++ r :: post ∧ (∀ x ∈ pre, 128 ≤ x) ∧ r < 128 := by
  induction readings with
  | nil => obtain ⟨r, hr, _⟩ := h; simp at hr
  | cons c rest ih =>
      by_cases hc : c < 128
      · exact ⟨[], c, rest, rfl, by simp, hc⟩
      · have h' : ∃ r ∈ rest, r < 128 := by
          obtain ⟨r, hr, hlt⟩ := h
          rcases List.mem_cons.mp hr with e | e
          · exact absurd (e ▸ hlt) hc
          · exact ⟨r, e, hlt⟩
        obtain ⟨pre, r, post, e1, e2, e3⟩ := ih h'
        refine ⟨c :: pre, r, post, by rw [e1]; rfl, ?_, e3⟩
        intro x hx
        rcases List.mem_cons.mp hx with e | e
        · rw [e]; omega
        · exact e2 x e

theorem tx_wait_split (pre post : List Nat) (r : Nat) (hpre : ∀ x ∈ pre, 128 ≤ x)
    (hr : r < 128) : tx_wait (pre ++ r :: post) = post := by
  induction pre with
  | nil => simp [tx_wait, hr]
  | cons c pre ih =>
      have hc : ¬ c < 128 := by have := hpre c (by simp); omega
      simp only [List.cons_append, tx_wait, hc, if_false]
      exact ih (fun x hx => hpre x (by simp [hx]))

theorem uart_byte_out_events_split (pre post : List Nat) (r b : Nat)
    (hpre : ∀ x ∈ pre, 128 ≤ x) (hr : r < 128) :
    uart_byte_out_events (pre ++ r :: post) b
      = (pre ++ [r]).map HwEvent.status_read ++ [HwEvent.fifo_write b] := by
  induction pre with
  | nil => simp [uart_byte_out_events, hr]
  | cons c pre ih =>
      have hc : ¬ c < 128 := by have := hpre c (by simp); omega
      have := ih (fun x hx => hpre x (by simp [hx]))
      simp only [List.cons_append, uart_byte_out_events, hc, if_false, List.map_cons]
      exact congrArg (fun l => HwEvent.status_read c :: l) this

/-- C13: with the hardware given as the sequence of values the transmit-FIFO
count shows, for every byte `b` and every sequence holding a value below 128,
`uart_byte_out(b)` reads the count up to and including the first value below
128, every value read before being 128 or more, then writes `b` to the
transmit FIFO once, and does nothing else: the accesses are those reads
followed by that one write, the FIFO gains `b` alone, and the readings behind
the first value below 128 are left unread. -/
theorem C13_backpressure (b : Nat) (readings fifo : List Nat)
    (h : ∃ r ∈ readings, r < 128) :
    ∃ pre r post, readings = pre ++ r :: post ∧ (∀ x ∈ pre, 128 ≤ x) ∧ r < 128 ∧
      uart_byte_out_events readings b
        = (pre ++ [r]).map HwEvent.status_read ++ [HwEvent.fifo_write b] ∧
      uart_byte_out { tx_cnt := readings, tx_fifo := fifo } b
        = { tx_cnt := post, tx_fifo := fifo ++ [b] } := by
  obtain ⟨pre, r, post, e1, e2, e3⟩ := first_below_split readings h
  refine ⟨pre, r, post, e1, e2, e3, ?_, ?_⟩
  · rw [e1]; exact uart_byte_out_events_split pre post r b e2 e3
  · simp only [uart_byte_out, e1, tx_wait_split pre post r e2 e3]

/-- C13 at the readings 200, 128, 127, 5 and the byte `a`: two readings of
128 or more, the write after the reading 127, the reading 5 left unread. -/
theorem C13_backpressure_witness :
    ∃ pre r post, [200, 128, 127, 5] = pre ++ r :: post ∧ (∀ x ∈ pre, 128 ≤ x) ∧ r < 128 ∧
      uart_byte_out_events [200, 128, 127, 5] 97
        = (pre ++ [r]).map HwEvent.status_read ++ [HwEvent.fifo_write 97] ∧
      uart_byte_out { tx_cnt := [200, 128, 127, 5], tx_fifo := [1, 2] } 97
        = { tx_cnt := post, tx_fifo := [1, 2] ++ [97] } :=
  C13_backpressure 97 [200, 128, 127, 5] [1, 2] ⟨127, by decide, by decide⟩

/-! ## Bounds of the buffer accesses -/

/-- Lines 85-89 have a defined result exactly when the index they store to,
if any, lies inside the array. -/
theorem rx_store_defined_iff (s : Sys) (ch : Nat) :
    (∃ s1, rx_store s ch = some s1) ↔ ∀ i, rx_store_index s ch = some i → i < s.rx_line.length := by
  unfold rx_store rx_store_index store
  by_cases hch : ch = 13
  · by_cases hp : s.rx_line_pos < s.rx_line.length
    · simp [hch, hp]
    · simp [hch, hp]
  · by_cases hq : s.rx_line_pos < 255
    · by_cases hp : s.rx_line_pos < s.rx_line.length
      · simp [hch, hq, hp]
      · simp [hch, hq, hp]
    · simp [hch, hq]

/-- The append branch (lines 88-89) never stores at an index above 254. -/
theorem rx_store_index_plain (s : Sys) (ch i : Nat) (hch : ch ≠ 13)
    (h : rx_store_index s ch = some i) : i ≤ 254 := by
  unfold rx_store_index at h
  simp only [hch, if_false] at h
  split at h
  · simp only [Option.some.injEq] at h; omega
  · exact absurd h (by simp)

/-- C15, the code at the failing input: 255 bytes `a` received after
start-up, in batches of 128 and 127, lead to a state with `rx_line_pos = 255`;
for a 0x0D received next the terminator store of line 86 uses index 255,
which is not inside the 255-byte array, so the handler has no defined
result. -/
theorem C15_store_index_failing_input :
    ∃ s1, deliver (init { tx_cnt := [], tx_fifo := [] })
        [List.replicate 128 97, List.replicate 127 97] = some s1 ∧
      s1.rx_line.length = 255 ∧ s1.rx_line_pos = 255 ∧
      rx_store_index s1 13 = some 255 ∧ rx_byte s1 13 = none ∧
      uart0_rx_intr_handler s1 true [13] = none := by
  obtain ⟨s1, e1, e2, e3, _, _, _⟩ :=
    rx_loop_overflow (init { tx_cnt := [], tx_fifo := [] })
      (List.replicate 128 97 ++ List.replicate 127 97) (init_length _) rfl
      (by simp only [List.mem_append, List.mem_replicate]; decide)
      (by simp only [List.length_append, List.length_replicate]; decide)
  have hl : s1.rx_line.length = 255 := by
    rw [e2]; simp only [List.length_take, List.length_append, List.length_replicate]; decide
  have hb := rx_byte_cr_overflow s1 hl (by omega)
  refine ⟨s1, ?_, hl, e3, ?_, hb, ?_⟩
  · rw [deliver_flatten]
    simp only [List.flatten_cons, List.flatten_nil, List.append_nil]
    exact e1
  · simp [rx_store_index, e3]
  · simp [uart0_rx_intr_handler, rx_loop, hb]

/-- C16, the code at the failing input: 255 bytes `a` received after
start-up lead to a state in which the dispatch condition of `main_on_timer`
holds (`rx_line_pos = 255`) and the 255-byte `rx_line` holds no 0 byte at all,
so `uart_str_out(rx_line)` reads past the array. -/
theorem C16_unterminated_failing_input :
    ∃ s1, deliver (init { tx_cnt := [], tx_fifo := [] })
        [List.replicate 128 97, List.replicate 127 97] = some s1 ∧
      (s1.rx_line_done ≠ 0 ∨ 255 ≤ s1.rx_line_pos) ∧ s1.rx_line.length = 255 ∧
      0 ∉ s1.rx_line ∧ (∀ u, uart_str_out u s1.rx_line = none) := by
  obtain ⟨s1, e1, e2, e3, _, _, _⟩ :=
    rx_loop_overflow (init { tx_cnt := [], tx_fifo := [] })
      (List.replicate 128 97 ++ List.replicate 127 97) (init_length _) rfl
      (by simp only [List.mem_append, List.mem_replicate]; decide)
      (by simp only [List.length_append, List.length_replicate]; decide)
  have hl : s1.rx_line.length = 255 := by
    rw [e2]; simp only [List.length_take, List.length_append, List.length_replicate]; decide
  have h0 : 0 ∉ s1.rx_line := by
    rw [e2]
    intro h
    have := List.mem_of_mem_take h
    simp only [List.mem_append, List.mem_replicate] at this
    omega
  refine ⟨s1, ?_, Or.inr (by omega), hl, h0, fun u => uart_str_out_unterminated _ h0 u⟩
  rw [deliver_flatten]
  simp only [List.flatten_cons, List.flatten_nil, List.append_nil]
  exact e1

/-- C17: from the empty state, for all byte sequences `w1` and `u` with `w1`
free of 0x0D and 0x00 and different from `reset`, and `|w1| + 1 + |u| <= 254`
(`u` may hold further 0x0D bytes), delivering `w1`, 0x0D and `u`, in any split
into batches, and then calling `main_on_timer` calls no restart, transmits
exactly `\r\n> `, `w1`, `\r\n`, and leaves the empty state (position 0, flag 0,
`rx_line[0] = 0`); the following `main_on_timer` call is a no-op. -/
theorem C17_input_after_line_discarded (s : Sys) (w1 u : List Nat) (bs : List (List Nat))
    (hlen : s.rx_line.length = 255) (hpos : s.rx_line_pos = 0) (_hdone : s.rx_line_done = 0)
    (hcr : 13 ∉ w1) (h0 : 0 ∉ w1) (hne : w1 ≠ [114, 101, 115, 101, 116])
    (hfit : w1.length + 1 + u.length ≤ 254) (hbs : bs.flatten = w1 ++ [13] ++ u) :
    ∃ s1 s2, deliver s bs = some s1 ∧ main_on_timer s1 = some s2 ∧
      s2.restarts = s1.restarts ∧
      s2.uart.tx_fifo = s1.uart.tx_fifo ++ ([13, 10, 62, 32] ++ w1 ++ [13, 10]) ∧
      s2.rx_line_pos = 0 ∧ s2.rx_line_done = 0 ∧ s2.rx_line[0]? = some 0 ∧
      main_on_timer s2 = some s2 := by
  obtain ⟨sa, a1, a2, a3, a4, _, _⟩ := rx_loop_line w1 hcr s hlen hpos (by omega)
  have hla : sa.rx_line.length = 255 := by
    rw [a2]; simp [hlen]; omega
  obtain ⟨s1, b1, _⟩ := rx_loop_defined u sa hla (by omega)
  obtain ⟨hl1, _, c3, c4⟩ := rx_loop_frozen u sa s1 hla b1
  have hd1 : s1.rx_line_done = 1 := c4 a4
  have htake : s1.rx_line.take (w1.length + 1) = w1 ++ [0] := by
    rw [← a3, c3, a2, a3]
    have hre : w1 ++ 0 :: s.rx_line.drop (w1.length + 1)
        = (w1 ++ [0]) ++ s.rx_line.drop (w1.length + 1) := by simp
    rw [hre]
    exact List.take_left' (by simp)
  have hsplit : s1.rx_line = w1 ++ 0 :: s1.rx_line.drop (w1.length + 1) := by
    have := (List.take_append_drop (w1.length + 1) s1.rx_line).symm
    rw [htake] at this
    simpa using this
  have hc1 : s1.rx_line_done ≠ 0 ∨ 255 ≤ s1.rx_line_pos := Or.inl (by omega)
  have hr : s1.rx_line.take 6 ≠ str_reset := by
    intro h
    have := ((take_six_eq_reset_iff _).mp h).2
    rw [hsplit, c_str_append_zero w1 _ h0] at this
    exact hne this
  obtain ⟨s2, d1, d2, d3, d4, d5, d6⟩ :=
    main_on_timer_echo s1 hl1 hc1 hr w1 _ hsplit h0
  refine ⟨s1, s2, ?_, d1, d5, d6, d3, d4, ?_, main_on_timer_idle s2 d4 (by omega)⟩
  · rw [deliver_flatten, hbs, rx_loop_append (w1 ++ [13]) u, a1]
    simpa using b1
  · rw [d2, List.getElem?_set]; simp [hl1]

/-- C17 at the line `hi`, followed before the tick by the bytes `x`, 0x0D and
`y`. -/
theorem C17_input_after_line_discarded_witness :
    ∃ s1 s2, deliver (init { tx_cnt := [], tx_fifo := [] })
        [[104, 105, 13], [120, 13, 121]] = some s1 ∧
      main_on_timer s1 = some s2 ∧ s2.restarts = s1.restarts ∧
      s2.uart.tx_fifo = s1.uart.tx_fifo ++ ([13, 10, 62, 32] ++ [104, 105] ++ [13, 10]) ∧
      s2.rx_line_pos = 0 ∧ s2.rx_line_done = 0 ∧ s2.rx_line[0]? = some 0 ∧
      main_on_timer s2 = some s2 :=
  C17_input_after_line_discarded (init { tx_cnt := [], tx_fifo := [] }) [104, 105]
    [120, 13, 121] [[104, 105, 13], [120, 13, 121]] (init_length _) rfl rfl
    (by decide) (by decide) (by decide) (by decide) (by decide)

/-- C18: for every content of the 255-byte `rx_line`, with or without a 0
byte, the loop of lines 110-112 over `rx_line` and the literal `reset` ends
inside both arrays: it dereferences `s0` and `s1` only at offsets 0 to 5, its
body runs at least once and at most six times, the pointers end at an offset
from 1 to 6, so that `*--s0` and `*--s1` address an offset from 0 to 5 and the
comparison of line 113 has a result. -/
theorem C18_comparison_in_bounds (buf : List Nat) (hlen : buf.length = 255) :
    ∃ t, cmp_loop_trace buf str_reset 0 = some t ∧ cmp_loop buf str_reset 0 = some t.off ∧
      1 ≤ t.iters ∧ t.iters ≤ 6 ∧ (∀ i ∈ t.reads0, i ≤ 5) ∧ (∀ i ∈ t.reads1, i ≤ 5) ∧
      1 ≤ t.off ∧ t.off - 1 ≤ 5 ∧ t.off - 1 < buf.length ∧ t.off - 1 < str_reset.length ∧
      ∃ r, cmp_reset buf = some r := by
  have hr : ∃ r, cmp_reset buf = some r := ⟨_, cmp_reset_eq buf (by omega)⟩
  match buf, hlen with
  | a0 :: a1 :: a2 :: a3 :: a4 :: a5 :: rest, hlen =>
    simp only [List.length_cons] at hlen
    by_cases h0 : a0 = 114
    · by_cases h1 : a1 = 101
      · by_cases h2 : a2 = 115
        · by_cases h3 : a3 = 101
          · by_cases h4 : a4 = 116
            · by_cases h5 : a5 = 0
              · refine ⟨{ off := 5, iters := 5, reads0 := [0, 0, 1, 1, 2, 2, 3, 3, 4, 4, 5],
                          reads1 := [0, 1, 2, 3, 4, 5] }, ?_, ?_, ?_⟩
                · simp [cmp_loop_trace, str_reset, h0, h1, h2, h3, h4, h5]
                · simp [cmp_loop, str_reset, h0, h1, h2, h3, h4, h5]
                · simp [str_reset, hr]
              · refine ⟨{ off := 6, iters := 6,
                          reads0 := [0, 0, 1, 1, 2, 2, 3, 3, 4, 4, 5, 5],
                          reads1 := [0, 1, 2, 3, 4, 5] }, ?_, ?_, ?_⟩
                · simp [cmp_loop_trace, str_reset, h0, h1, h2, h3, h4, h5]
                · simp [cmp_loop, str_reset, h0, h1, h2, h3, h4, h5]
                · simp [str_reset, hr]
            · refine ⟨{ off := 5, iters := 5, reads0 := [0, 0, 1, 1, 2, 2, 3, 3, 4, 4],
                        reads1 := [0, 1, 2, 3] ++ (if a4 = 0 then [4, 4] else [4]) }, ?_, ?_, ?_⟩
              · simp [cmp_loop_trace, str_reset, h0, h1, h2, h3, h4]
              · simp [cmp_loop, str_reset, h0, h1, h2, h3, h4]
              · split <;> simp [str_reset, hr]
          · refine ⟨{ off := 4, iters := 4, reads0 := [0, 0, 1, 1, 2, 2, 3, 3],
                      reads1 := [0, 1, 2] ++ (if a3 = 0 then [3, 3] else [3]) }, ?_, ?_, ?_⟩
            · simp [cmp_loop_trace, str_reset, h0, h1, h2, h3]
            · simp [cmp_loop, str_reset, h0, h1, h2, h3]
            · split <;> simp [str_reset, hr]
        · refine ⟨{ off := 3, iters := 3, reads0 := [0, 0, 1, 1, 2, 2],
                    reads1 := [0, 1] ++ (if a2 = 0 then [2, 2] else [2]) }, ?_, ?_, ?_⟩
          · simp [cmp_loop_trace, str_reset, h0, h1, h2]
          · simp [cmp_loop, str_reset, h0, h1, h2]
          · split <;> simp [str_reset, hr]
      · refine ⟨{ off := 2, iters := 2, reads0 := [0, 0, 1, 1],
                  reads1 := [0] ++ (if a1 = 0 then [1, 1] else [1]) }, ?_, ?_, ?_⟩
        · simp [cmp_loop_trace, str_reset, h0, h1]
        · simp [cmp_loop, str_reset, h0, h1]
        · split <;> simp [str_reset, hr]
    · refine ⟨{ off := 1, iters := 1, reads0 := [0, 0],
                reads1 := (if a0 = 0 then [0, 0] else [0]) }, ?_, ?_, ?_⟩
      · simp [cmp_loop_trace, str_reset, h0]
      · simp [cmp_loop, str_reset, h0]
      · split <;> simp [str_reset, hr]

/-- C18 at a buffer of 255 bytes `r`, which holds no 0 byte. -/
theorem C18_comparison_in_bounds_witness :
    ∃ t, cmp_loop_trace (List.replicate 255 114) str_reset 0 = some t ∧
      cmp_loop (List.replicate 255 114) str_reset 0 = some t.off ∧
      1 ≤ t.iters ∧ t.iters ≤ 6 ∧ (∀ i ∈ t.reads0, i ≤ 5) ∧ (∀ i ∈ t.reads1, i ≤ 5) ∧
      1 ≤ t.off ∧ t.off - 1 ≤ 5 ∧ t.off - 1 < (List.replicate 255 114).length ∧
      t.off - 1 < str_reset.length ∧ ∃ r, cmp_reset (List.replicate 255 114) = some r :=
  C18_comparison_in_bounds (List.replicate 255 114) (List.length_replicate 255 114)

end UartRx
